import Mathlib

/-!
# Verification of the dynamic-Bayesian-network temporal indexing layer

This development embeds the core of the `dynamic-Bayesian-Networks`
repository (files `src/DynamicBayesNet.py` and `src/notebook.py`) in Lean 4
and proves properties of the name codec (`dCommon`), the temporal facade
(`DynamicBayesNet`), the tensor wrapper (`dPotential`) and the unrolling
algorithm (`unrollKTBN`).

The probabilistic-graph engine (pyAgrum) is an external collaborator of the
repository; it is modelled from its interface as used by the code: nodes with
names, a directed arc list, and conditional probability tables indexed by
named evidence.  CPT values are modelled as rationals; the code never does
arithmetic on them (it only copies and relabels), so the numeric carrier is
irrelevant to every claim proved here.

Python strings are modelled as Lean `String` (a list of characters), the
decimal rendering `str(t)` of a nonnegative `int` as `Nat.toDigits 10 t`,
and `int(s)` on a digit string as `parseDec`.  Python exceptions are
modelled by the `PyErr` type, with one constructor per raise site.
-/

set_option autoImplicit false

namespace DBNSpec

/-- Python exceptions raised by the code, one constructor per raise site or
engine failure mode.  The spec's *ValidationError* corresponds to Python
`ValueError` raises in the code; `indexError` models a Python `IndexError`;
`notFound` and `duplicateLabel` model the external engine's failures for a
missing node name and an already-used node name. -/
inductive PyErr where
  /-- `ValueError` from `DynamicBayesNet.add`: variable name contains the separator. -/
  | valueSeparator : PyErr
  /-- `ValueError` from `DynamicBayesNet.addArc`: backward arc `t1 > t2`. -/
  | valueBackwardArc : PyErr
  /-- `ValueError` from `DynamicBayesNet.addArc`: arc endpoint slice outside `[0,k)`. -/
  | valueArcSpan : PyErr
  /-- `ValueError` from `unrollKTBN`: requested length below the horizon. -/
  | valueUnrollTooShort : PyErr
  /-- `ValueError` from `dPotential.__getitem__`/`__setitem__`: non-tuple key. -/
  | valueInvalidKey : PyErr
  /-- Python `IndexError` (out-of-range list indexing, e.g. `split[1]`). -/
  | indexError : PyErr
  /-- Engine error: no node with the given name (pyAgrum `NotFound`). -/
  | notFound : PyErr
  /-- Engine error: a node with the given name already exists. -/
  | duplicateLabel : PyErr
  /-- Engine error: the arc would create a directed cycle, including a
  self-arc (pyAgrum `InvalidDirectedCycle`). -/
  | invalidDirectedCycle : PyErr
  /-- Engine error: the arc is already present, so the tail variable would
  enter the head's Potential twice (pyAgrum `DuplicateElement`). -/
  | duplicateElement : PyErr
deriving DecidableEq, Repr

/-- Whether a `PyErr` is a Python `ValueError` (the spec's ValidationError
taxonomy: malformed name, separator collision, backward arc, horizon
violation, `n < k`, invalid key). -/
def PyErr.isValueError : PyErr → Bool
  | .valueSeparator | .valueBackwardArc | .valueArcSpan
  | .valueUnrollTooShort | .valueInvalidKey => true
  | _ => false

/-! ## Decimal rendering of a natural number

`str(t)` in Python renders a nonnegative integer in decimal; Lean's
`Nat.toDigits 10 t` produces the same character list.  We prove the facts
the codec needs: a recurrence, that every character is a decimal digit,
and that parsing the rendering returns the number. -/

/-- The decimal character list of `n`, i.e. the characters of Python `str(n)`. -/
def decDigits (n : Nat) : List Char :=
  Nat.toDigits 10 n

theorem toDigitsCore_acc (f : Nat) :
    ∀ (n : Nat) (acc : List Char),
      Nat.toDigitsCore 10 f n acc = Nat.toDigitsCore 10 f n [] ++ acc := by
  induction f with
  | zero => intro n acc; simp [Nat.toDigitsCore]
  | succ f ih =>
    intro n acc
    simp only [Nat.toDigitsCore]
    by_cases h : n / 10 = 0
    · simp [h]
    · simp only [h, if_false]
      rw [ih (n / 10) (Nat.digitChar (n % 10) :: acc),
        ih (n / 10) (Nat.digitChar (n % 10) :: [])]
      simp

theorem toDigitsCore_fuel :
    ∀ (n f₁ f₂ : Nat), n < f₁ → n < f₂ →
      Nat.toDigitsCore 10 f₁ n [] = Nat.toDigitsCore 10 f₂ n [] := by
  intro n
  induction n using Nat.strong_induction_on with
  | _ n ih =>
    intro f₁ f₂ h₁ h₂
    match f₁, f₂ with
    | g₁ + 1, g₂ + 1 =>
      simp only [Nat.toDigitsCore]
      by_cases h : n / 10 = 0
      · simp [h]
      · simp only [h, if_false]
        have hn10 : n / 10 < n := by
          have : 0 < n := by
            rcases Nat.eq_zero_or_pos n with h0 | h0
            · exact absurd (by simp [h0]) h
            · exact h0
          exact Nat.div_lt_self this (by norm_num)
        rw [toDigitsCore_acc g₁ (n / 10) [Nat.digitChar (n % 10)],
          toDigitsCore_acc g₂ (n / 10) [Nat.digitChar (n % 10)]]
        have e := ih (n / 10) hn10 g₁ g₂ (by omega) (by omega)
        rw [e]

/-- Recurrence for the decimal rendering: one digit for `n < 10`, otherwise
the rendering of `n / 10` followed by the digit of `n % 10`. -/
theorem decDigits_rec (n : Nat) :
    decDigits n =
      if n < 10 then [Nat.digitChar n]
      else decDigits (n / 10) ++ [Nat.digitChar (n % 10)] := by
  by_cases h : n < 10
  · have h10 : n / 10 = 0 := Nat.div_eq_of_lt h
    have hmod : n % 10 = n := Nat.mod_eq_of_lt h
    simp [decDigits, Nat.toDigits, Nat.toDigitsCore, h10, h, hmod]
  · have h10 : n / 10 ≠ 0 := by
      intro h0
      exact h ((Nat.div_eq_zero_iff (by norm_num)).1 h0)
    have hpos : 0 < n := by omega
    simp only [decDigits, Nat.toDigits, Nat.toDigitsCore, h10, if_false, h]
    rw [toDigitsCore_acc n (n / 10) [Nat.digitChar (n % 10)]]
    congr 1
    exact toDigitsCore_fuel (n / 10)
      n (n / 10 + 1) (Nat.div_lt_self hpos (by norm_num)) (Nat.lt_succ_self _)

theorem decDigits_mem (n : Nat) :
    ∀ c ∈ decDigits n, ∃ dgt, dgt < 10 ∧ c = Nat.digitChar dgt := by
  induction n using Nat.strong_induction_on with
  | _ n ih =>
    intro c hc
    rw [decDigits_rec] at hc
    by_cases h : n < 10
    · simp only [h, if_true, List.mem_singleton] at hc
      exact ⟨n, h, hc⟩
    · simp only [h, if_false, List.mem_append, List.mem_singleton] at hc
      rcases hc with hc | hc
      · exact ih (n / 10) (Nat.div_lt_self (by omega) (by norm_num)) c hc
      · exact ⟨n % 10, Nat.mod_lt _ (by norm_num), hc⟩

/-- The numeric value of a decimal digit character (Python `int` on one digit). -/
def digitVal (c : Char) : Nat :=
  c.toNat - 48

/-- Parse a list of decimal digit characters left to right, accumulator style
(the semantics of Python `int` on a digit string). -/
def parseDecAux : List Char → Nat → Nat
  | [], acc => acc
  | c :: cs, acc => parseDecAux cs (acc * 10 + digitVal c)

/-- Python `int(s)` for a decimal digit string `s`. -/
def parseDec (l : List Char) : Nat :=
  parseDecAux l 0

theorem digitVal_digitChar : ∀ dgt, dgt < 10 → digitVal (Nat.digitChar dgt) = dgt := by
  decide

theorem parseDecAux_append (a b : List Char) :
    ∀ acc, parseDecAux (a ++ b) acc = parseDecAux b (parseDecAux a acc) := by
  induction a with
  | nil => intro acc; rfl
  | cons c cs ih => intro acc; simp [parseDecAux, ih]

theorem parseDecAux_decDigits (n : Nat) :
    ∀ acc, parseDecAux (decDigits n) acc = acc * 10 ^ (decDigits n).length + n := by
  induction n using Nat.strong_induction_on with
  | _ n ih =>
    intro acc
    rw [decDigits_rec]
    by_cases h : n < 10
    · simp [h, parseDecAux, digitVal_digitChar n h]
    · have hlt : n / 10 < n := Nat.div_lt_self (by omega) (by norm_num)
      simp only [h, if_false, parseDecAux_append, List.length_append,
        List.length_singleton]
      rw [ih (n / 10) hlt acc]
      simp only [parseDecAux, digitVal_digitChar (n % 10) (Nat.mod_lt _ (by norm_num))]
      have : acc * 10 ^ ((decDigits (n / 10)).length + 1)
          = acc * 10 ^ (decDigits (n / 10)).length * 10 := by ring
      rw [this]
      have hdm : n / 10 * 10 + n % 10 = n := by omega
      omega

theorem parseDec_decDigits (n : Nat) : parseDec (decDigits n) = n := by
  simpa [parseDec] using parseDecAux_decDigits n 0

theorem decDigits_injective : Function.Injective decDigits := by
  intro a b h
  have := parseDec_decDigits a
  rw [h, parseDec_decDigits] at this
  omega

/-! ## Character-level split

Python `s.split(sep)` for a one-character separator: cut the character list
at every occurrence of `sep`. -/

/-- Auxiliary split: `acc` holds the reversed characters of the chunk being read. -/
def splitOnCharAux (sep : Char) : List Char → List Char → List (List Char)
  | [], acc => [acc.reverse]
  | c :: cs, acc =>
    if c = sep then acc.reverse :: splitOnCharAux sep cs []
    else splitOnCharAux sep cs (c :: acc)

/-- Python `s.split(sep)` on character lists, for a one-character separator. -/
def splitOnChar (sep : Char) (l : List Char) : List (List Char) :=
  splitOnCharAux sep l []

theorem splitOnCharAux_not_mem (sep : Char) :
    ∀ (l acc : List Char), sep ∉ l → splitOnCharAux sep l acc = [acc.reverse ++ l] := by
  intro l
  induction l with
  | nil => intro acc _; simp [splitOnCharAux]
  | cons c cs ih =>
    intro acc h
    have hc : c ≠ sep := fun he => h (he ▸ List.mem_cons_self c cs)
    have hcs : sep ∉ cs := fun hm => h (List.mem_cons_of_mem c hm)
    simp [splitOnCharAux, hc, ih (c :: acc) hcs]

theorem splitOnChar_not_mem (sep : Char) (l : List Char) (h : sep ∉ l) :
    splitOnChar sep l = [l] := by
  simpa using splitOnCharAux_not_mem sep l [] h

theorem splitOnCharAux_append (sep : Char) :
    ∀ (a acc b : List Char), sep ∉ a →
      splitOnCharAux sep (a ++ sep :: b) acc = (acc.reverse ++ a) :: splitOnChar sep b := by
  intro a
  induction a with
  | nil => intro acc b _; simp [splitOnCharAux, splitOnChar]
  | cons c cs ih =>
    intro acc b h
    have hc : c ≠ sep := fun he => h (he ▸ List.mem_cons_self c cs)
    have hcs : sep ∉ cs := fun hm => h (List.mem_cons_of_mem c hm)
    simp only [List.cons_append, splitOnCharAux, hc, if_false]
    exact (ih (c :: acc) b hcs).trans (by simp)

theorem splitOnChar_encode (sep : Char) (a b : List Char) (ha : sep ∉ a) (hb : sep ∉ b) :
    splitOnChar sep (a ++ sep :: b) = [a, b] := by
  rw [splitOnChar, splitOnCharAux_append sep a [] b ha]
  simp [splitOnChar_not_mem sep b hb]

/-- Splitting a list at an occurrence of an element absent from both prefixes
is unambiguous. -/
theorem append_sep_unique (sep : Char) :
    ∀ (a₁ a₂ b₁ b₂ : List Char), sep ∉ a₁ → sep ∉ a₂ →
      a₁ ++ sep :: b₁ = a₂ ++ sep :: b₂ → a₁ = a₂ ∧ b₁ = b₂ := by
  intro a₁
  induction a₁ with
  | nil =>
    intro a₂ b₁ b₂ _ h₂ he
    cases a₂ with
    | nil => simpa using he
    | cons c cs =>
      simp only [List.nil_append, List.cons_append, List.cons.injEq] at he
      exact absurd (he.1 ▸ List.mem_cons_self c cs) h₂
  | cons c cs ih =>
    intro a₂ b₁ b₂ h₁ h₂ he
    cases a₂ with
    | nil =>
      simp only [List.cons_append, List.nil_append, List.cons.injEq] at he
      exact absurd (he.1.symm ▸ List.mem_cons_self c cs) h₁
    | cons c' cs' =>
      simp only [List.cons_append, List.cons.injEq] at he
      have h₁' : sep ∉ cs := fun hm => h₁ (List.mem_cons_of_mem c hm)
      have h₂' : sep ∉ cs' := fun hm => h₂ (List.mem_cons_of_mem c' hm)
      obtain ⟨hcs, hb⟩ := ih cs' b₁ b₂ h₁' h₂' he.2
      exact ⟨by rw [he.1, hcs], hb⟩

/-! ## The name codec (`dCommon`)

`dCommon` carries a separator (default `"#"`, one character) and converts
between user identifiers `(name, slice)` and flat engine names
`"name<sep>slice"`. -/

/-- Python `self.separator in name` for a one-character separator. -/
def containsSep (sep : Char) (s : String) : Bool :=
  s.data.any (· == sep)

/-- `dCommon._userToCodeName`: `f"{name}{self.separator}{time_slice}"`. -/
def _userToCodeName (sep : Char) (name : String) (t : Nat) : String :=
  ⟨name.data ++ sep :: decDigits t⟩

/-- `dCommon._codeToUserName`: `split = name.split(self.separator);
return split[0], split[1]`.  The slice component of the result is the raw
*string* `split[1]`; when the separator is absent, `split` has one element
and the access `split[1]` raises a Python `IndexError`. -/
def _codeToUserName (sep : Char) (s : String) : Except PyErr (String × String) :=
  match splitOnChar sep s.data with
  | p0 :: p1 :: _ => .ok (⟨p0⟩, ⟨p1⟩)
  | _ => .error .indexError

/-- Flat-name decoding as used inside `unrollKTBN`:
`parent_user = dbn._codeToUserName(name)` followed by
`parent_base, parent_ts = parent_user[0], int(parent_user[1])`.
Modelled as a total function; under the template invariants every name it is
applied to has the form `base<sep>digits`, where it returns `(base, slice)`. -/
def decodeNode (sep : Char) (s : String) : String × Nat :=
  let parts := splitOnChar sep s.data
  (⟨parts.headD []⟩, parseDec (parts.getD 1 []))

/-- The separator is not a decimal digit character (true of the default `'#'`). -/
def SepNotDigit (sep : Char) : Prop :=
  ∀ dgt, dgt < 10 → Nat.digitChar dgt ≠ sep

instance (sep : Char) : Decidable (SepNotDigit sep) := by
  unfold SepNotDigit; infer_instance

theorem sep_not_mem_decDigits {sep : Char} (h : SepNotDigit sep) (t : Nat) :
    sep ∉ decDigits t := by
  intro hm
  obtain ⟨dgt, hd, rfl⟩ := decDigits_mem t sep hm
  exact h dgt hd rfl

theorem containsSep_eq_false_iff (sep : Char) (s : String) :
    containsSep sep s = false ↔ sep ∉ s.data := by
  simp only [containsSep, List.any_eq_false, beq_iff_eq]
  constructor
  · intro h hm
    exact (h sep hm) rfl
  · intro h c hc he
    exact h (he ▸ hc)

theorem string_data_inj {a b : String} (h : a.data = b.data) : a = b := by
  cases a; cases b; exact congrArg String.mk h

theorem codeToUserName_userToCodeName {sep : Char} {name : String}
    (hn : sep ∉ name.data) (hd : SepNotDigit sep) (t : Nat) :
    _codeToUserName sep (_userToCodeName sep name t) = .ok (name, ⟨decDigits t⟩) := by
  have hsplit : splitOnChar sep (name.data ++ sep :: decDigits t)
      = [name.data, decDigits t] :=
    splitOnChar_encode sep name.data (decDigits t) hn (sep_not_mem_decDigits hd t)
  simp [_codeToUserName, _userToCodeName, hsplit]

theorem decodeNode_userToCodeName {sep : Char} {name : String}
    (hn : sep ∉ name.data) (hd : SepNotDigit sep) (t : Nat) :
    decodeNode sep (_userToCodeName sep name t) = (name, t) := by
  have hsplit : splitOnChar sep (name.data ++ sep :: decDigits t)
      = [name.data, decDigits t] :=
    splitOnChar_encode sep name.data (decDigits t) hn (sep_not_mem_decDigits hd t)
  simp [decodeNode, _userToCodeName, hsplit, parseDec_decDigits]

theorem userToCodeName_inj {sep : Char} {n₁ n₂ : String} {t₁ t₂ : Nat}
    (h₁ : sep ∉ n₁.data) (h₂ : sep ∉ n₂.data)
    (he : _userToCodeName sep n₁ t₁ = _userToCodeName sep n₂ t₂) :
    n₁ = n₂ ∧ t₁ = t₂ := by
  have hdata : n₁.data ++ sep :: decDigits t₁ = n₂.data ++ sep :: decDigits t₂ :=
    congrArg String.data he
  obtain ⟨ha, hb⟩ := append_sep_unique sep n₁.data n₂.data _ _ h₁ h₂ hdata
  exact ⟨string_data_inj ha, decDigits_injective hb⟩

theorem codeToUserName_no_sep {sep : Char} {s : String} (h : sep ∉ s.data) :
    _codeToUserName sep s = .error .indexError := by
  simp [_codeToUserName, splitOnChar_not_mem sep s.data h]

/-- Python scalar values, used to state Python `==` between the decoded slice
(a `str`) and the slice that was encoded (an `int`): in Python, values of
these two types never compare equal. -/
inductive PyScalar where
  | s : String → PyScalar
  | i : Nat → PyScalar
deriving DecidableEq

/-- Python `==` on scalars: `str` and `int` values never compare equal. -/
def pyScalarEq : PyScalar → PyScalar → Bool
  | .s a, .s b => a == b
  | .i a, .i b => a == b
  | _, _ => false

/-! ### Claims C3 and C9 -/

/-- C3, counterexample: the round trip is not the identity on `(name, slice)`
pairs.  Decoding the encoding of `("A", 1)` yields the pair `("A", "1")`
whose slice component is the *string* `"1"`, and in Python the string `"1"`
is not `==` to the integer `1` that was encoded. -/
theorem C3_counterexample :
    _codeToUserName '#' (_userToCodeName '#' "A" 1) = .ok ("A", "1") ∧
      pyScalarEq (.s "1") (.i 1) = false := by
  constructor
  · have h : ('#' : Char) ∉ "A".data := by decide
    rw [codeToUserName_userToCodeName h (by decide) 1]
    rfl
  · rfl

/-- C3, amended: for every name that does not contain the separator and every
slice `t`, decoding the encoding of `(name, t)` yields the pair
`(name, str(t))` — the name comes back exactly, and the slice comes back as
the decimal *string* rendering of `t` (not as the integer `t`); parsing that
string with `int` recovers `t`. -/
theorem C3_roundtrip_slice_as_string (name : String) (t : Nat)
    (h : containsSep '#' name = false) :
    _codeToUserName '#' (_userToCodeName '#' name t)
        = .ok (name, ⟨decDigits t⟩) ∧
      parseDec (decDigits t) = t := by
  refine ⟨?_, parseDec_decDigits t⟩
  exact codeToUserName_userToCodeName ((containsSep_eq_false_iff '#' name).1 h)
    (by decide) t

/-- C3, witness for the amended theorem at `name = "A"`, `t = 12`. -/
theorem C3_roundtrip_slice_as_string_witness :
    containsSep '#' "A" = false ∧
      (_codeToUserName '#' (_userToCodeName '#' "A" 12)
          = .ok ("A", ⟨decDigits 12⟩) ∧
        parseDec (decDigits 12) = 12) :=
  ⟨by decide, C3_roundtrip_slice_as_string "A" 12 (by decide)⟩

/-- C9, counterexample: decoding a string without the separator does not fail
with a ValidationError (`ValueError`); on `"abc"` the access `split[1]`
raises an `IndexError`, which is not a `ValueError`. -/
theorem C9_counterexample :
    _codeToUserName '#' "abc" = .error .indexError ∧
      PyErr.indexError.isValueError = false := by
  constructor
  · exact codeToUserName_no_sep (by decide)
  · rfl

/-- C9, amended: for every string that does not contain the separator,
`_codeToUserName` fails with an out-of-range indexing error (`IndexError`
from `split[1]`), which is not a `ValueError`. -/
theorem C9_decode_no_separator_index_error (s : String)
    (h : containsSep '#' s = false) :
    _codeToUserName '#' s = .error .indexError ∧
      PyErr.indexError.isValueError = false :=
  ⟨codeToUserName_no_sep ((containsSep_eq_false_iff '#' s).1 h), rfl⟩

/-- C9, witness for the amended theorem at `s = "xyz"`. -/
theorem C9_decode_no_separator_index_error_witness :
    containsSep '#' "xyz" = false ∧
      (_codeToUserName '#' "xyz" = .error .indexError ∧
        PyErr.indexError.isValueError = false) :=
  ⟨by decide, C9_decode_no_separator_index_error "xyz" (by decide)⟩

/-! ## The engine graph

pyAgrum is an external collaborator; the model below follows the interface
the repository uses (spec section 6): named nodes carrying a domain size and
a description, a directed arc list keyed by node names, and one CPT per node
name.  pyAgrum node ids are in bijection with node names through
`idFromName`/`variable`, so names serve as identifiers here. -/

/-- An engine node (a pyAgrum discrete variable): name, domain size,
description. -/
structure GVar where
  name : String
  domSize : Nat
  descr : String
deriving DecidableEq

/-- Evidence: a full named instantiation, flat node name to state index. -/
abbrev Evd := String → Nat

/-- A CPT value table indexed by named evidence.  Values are rationals; the
code only copies and relabels CPT entries, never computes with them, so the
numeric carrier is irrelevant. -/
abbrev Cpt := Evd → ℚ

/-- The engine graph (pyAgrum `BayesNet`). -/
structure BN where
  nodes : List GVar
  arcs : List (String × String)
  cpts : List (String × Cpt)

/-- Engine `exists(name)`. -/
def BN.existsName (bn : BN) (s : String) : Bool :=
  bn.nodes.any (fun nd => nd.name == s)

/-- Engine `variable(id)` looked up by name (total, with a junk default that
is never hit under the invariants in force where it is used). -/
def BN.findVar (bn : BN) (s : String) : GVar :=
  (bn.nodes.find? (fun nd => nd.name == s)).getD ⟨"", 0, ""⟩

/-- Engine node insertion (pyAgrum `add`), used where the caller guarantees
the name is fresh. -/
def BN.addNode (bn : BN) (v : GVar) : BN :=
  { bn with nodes := bn.nodes ++ [v] }

/-- Engine node insertion with the engine's name-uniqueness check: pyAgrum
rejects a node whose name already exists (names are unique keys, as the
`exists`/`idFromName` interface of spec section 6 requires). -/
def BN.addNodeE (bn : BN) (v : GVar) : Except PyErr BN :=
  if bn.existsName v.name then .error .duplicateLabel else .ok (bn.addNode v)

/-- The arc insertion the engine performs on the success path of `addArc`.
It is also used directly to embed the unrolling loop, where every added arc
points into a freshly created slice-`t` node with pairwise distinct tails,
so the checked failure modes of `BN.addArcChecked` are unreachable there. -/
def BN.addArcE (bn : BN) (a b : String) : BN :=
  { bn with arcs := bn.arcs ++ [(a, b)] }

/-- Whether `b` is reachable from `a` along at most `fuel` directed arcs
(`fuel = arcs.length` covers every arc-repetition-free path, hence
reachability on the finite graph). -/
def reachableIn (arcs : List (String × String)) : Nat → String → String → Bool
  | 0, a, b => a == b
  | fuel + 1, a, b =>
    a == b || (arcs.filter (fun p => p.1 == a)).any fun p => reachableIn arcs fuel p.2 b

/-- Engine `addArc` (pyAgrum `BayesNet.addArc`) with its failure modes:
`InvalidDirectedCycle` when the head already reaches the tail — in
particular any self-arc — and `DuplicateElement` when the arc is already
present, so that the tail variable would enter the head's Potential twice. -/
def BN.addArcChecked (bn : BN) (a b : String) : Except PyErr BN :=
  if reachableIn bn.arcs bn.arcs.length b a then .error .invalidDirectedCycle
  else if (a, b) ∈ bn.arcs then .error .duplicateElement
  else .ok (bn.addArcE a b)

/-- Engine `eraseArc`: removes the arc if present, does nothing otherwise
(the behaviour documented in `DynamicBayesNet.eraseArc`). -/
def BN.eraseArcE (bn : BN) (a b : String) : BN :=
  { bn with arcs := bn.arcs.filter (fun p => !(p.1 == a && p.2 == b)) }

/-- Engine `parents(id)`: tails of the arcs into the given head. -/
def BN.parents (bn : BN) (h : String) : List String :=
  (bn.arcs.filter (fun p => p.2 == h)).map Prod.fst

/-- Engine CPT lookup (`bn.cpt(name)`); a node whose CPT was never filled has
some default table, modelled as the zero table (its value is irrelevant to
every claim). -/
def BN.getCpt (bn : BN) (x : String) : Cpt :=
  ((bn.cpts.find? (fun p => p.1 == x)).map Prod.snd).getD (fun _ => 0)

/-- Engine CPT assignment: record the new table for `x` (most recent entry
wins on lookup). -/
def BN.setCpt (bn : BN) (x : String) (f : Cpt) : BN :=
  { bn with cpts := (x, f) :: bn.cpts }

/-- Apply a pyAgrum `fillWith` rename mapping — association pairs
`(target variable name, source variable name)` in dict insertion order — to
target evidence, producing source evidence: the source variable `old` reads
the target evidence at the target variable mapped to it. -/
def renameEvd (m : List (String × String)) (e : Evd) : Evd :=
  fun y =>
    match m.find? (fun p => p.2 == y) with
    | some p => e p.1
    | none => e y

/-- Engine `target.fillWith(source, mapping)` (pyAgrum `Potential.fillWith`
with a name mapping): the target CPT becomes the source CPT read through the
rename mapping. -/
def BN.fillWithMap (bn : BN) (x : String) (src : Cpt) (m : List (String × String)) : BN :=
  bn.setCpt x (fun e => src (renameEvd m e))

/-! ## The temporal facade (`DynamicBayesNet`) -/

/-- The facade state: one engine graph, the set of registered atemporal
variable names (a Python set, modelled as a list in iteration order), the
horizon `k` and the separator. -/
structure DBN where
  kTBN : BN
  /-- the `self.variables` set of the source -/
  vars : List String
  k : Nat
  sep : Char

/-- `DynamicBayesNet.__init__(k, separator)`. -/
def DynamicBayesNet (k : Nat) (sep : Char) : DBN :=
  ⟨⟨[], [], []⟩, [], k, sep⟩

/-- `dCommon.idFromName`: encode the user key and ask the engine for the
node; the engine raises `NotFound` when no node has that name. -/
def DBN.idFromName (d : DBN) (p : String × Nat) : Except PyErr String :=
  let s := _userToCodeName d.sep p.1 p.2
  if d.kTBN.existsName s then .ok s else .error .notFound

/-- `DynamicBayesNet.add(v)`: raise `ValueError` if the name contains the
separator, then add one clone of `v` per slice `t ∈ [0,k)` to the engine
graph and register the name.  The registration (duplicate-name) check
present in an earlier revision is commented out in the source; a duplicate
name therefore reaches the engine, which rejects it at `t = 0` before any
node is created. -/
def DBN.add (d : DBN) (v : GVar) : Except PyErr DBN :=
  if containsSep d.sep v.name then .error .valueSeparator
  else do
    let bn ← (List.range d.k).foldlM (fun bn t =>
      bn.addNodeE
        { name := _userToCodeName d.sep v.name t
          domSize := v.domSize
          descr := v.descr ++ " (t=" ++ (⟨decDigits t⟩ : String) ++ ")" }) d.kTBN
    .ok { d with kTBN := bn, vars := d.vars ++ [v.name] }

/-- `DynamicBayesNet.addArc(tail, head)`: `ValueError` on a backward arc
(`t1 > t2`), then `ValueError` when an endpoint slice is outside `[0,k)`,
then resolve both endpoints (engine `NotFound` if missing), then delegate
to the engine's `addArc`, which inserts the directed edge or raises its own
cycle/duplicate error. -/
def DBN.addArc (d : DBN) (tail head : String × Nat) : Except PyErr DBN :=
  if tail.2 > head.2 then .error .valueBackwardArc
  else if d.k ≤ tail.2 || d.k ≤ head.2 then .error .valueArcSpan
  else do
    let i₁ ← d.idFromName tail
    let i₂ ← d.idFromName head
    let bn ← d.kTBN.addArcChecked i₁ i₂
    .ok { d with kTBN := bn }

/-- `DynamicBayesNet.eraseArc(tail, head)`: resolve both endpoints, then ask
the engine to remove the arc (a no-op when the arc is absent). -/
def DBN.eraseArc (d : DBN) (tail head : String × Nat) : Except PyErr DBN := do
  let i₁ ← d.idFromName tail
  let i₂ ← d.idFromName head
  .ok { d with kTBN := d.kTBN.eraseArcE i₁ i₂ }

/-- Facade wellformedness, as established by the facade API: registered
names are separator-free; a node exists for every registered name at every
slice below the horizon; every node belongs to a registered name at a slice
below the horizon; and the separator is not a digit character. -/
def DBN.wfFacade (d : DBN) : Prop :=
  (∀ v ∈ d.vars, d.sep ∉ v.data) ∧
  (∀ v ∈ d.vars, ∀ t, t < d.k →
    d.kTBN.existsName (_userToCodeName d.sep v t) = true) ∧
  (∀ nd ∈ d.kTBN.nodes, ∃ v ∈ d.vars, ∃ t, t < d.k ∧
    nd.name = _userToCodeName d.sep v t) ∧
  SepNotDigit d.sep

instance (d : DBN) : Decidable d.wfFacade := by
  unfold DBN.wfFacade; infer_instance

theorem existsName_of_not_registered {d : DBN} (hwf : d.wfFacade)
    {n : String} (hn : d.sep ∉ n.data) (hnr : n ∉ d.vars) (t : Nat) :
    d.kTBN.existsName (_userToCodeName d.sep n t) = false := by
  obtain ⟨hsepfree, _, hnodes, _⟩ := hwf
  rw [BN.existsName, List.any_eq_false]
  intro nd hnd
  obtain ⟨v, hv, s, _, hname⟩ := hnodes nd hnd
  simp only [hname, beq_iff_eq]
  intro he
  obtain ⟨rfl, _⟩ := userToCodeName_inj (hsepfree v hv) hn he
  exact hnr hv

theorem foldlM_cons_except {α β : Type} (f : β → α → Except PyErr β) (b : β)
    (x : α) (xs : List α) :
    List.foldlM f b (x :: xs) = f b x >>= fun b' => List.foldlM f b' xs :=
  rfl

theorem error_bind {α β : Type} (e : PyErr) (g : α → Except PyErr β) :
    (Except.error e : Except PyErr α) >>= g = .error e :=
  rfl

/-! ### Claim C4 -/

/-- C4, counterexample: adding an already-registered variable does not fail
with a ValidationError (`ValueError`).  The registration check in
`DynamicBayesNet.add` is commented out in the source, so the duplicate name
reaches the engine, which rejects `"A#0"` with its duplicate-name error —
not a `ValueError`. -/
theorem C4_counterexample :
    ((DynamicBayesNet 3 '#').add ⟨"A", 2, "A"⟩ >>= fun d => d.add ⟨"A", 2, "A"⟩)
        = .error .duplicateLabel ∧
      PyErr.duplicateLabel.isValueError = false :=
  ⟨rfl, rfl⟩

/-- C4, amended: `DynamicBayesNet.add` fails with `ValueError`
(ValidationError) when the variable's name contains the separator — in
particular a variable named `"X#1"` under the default separator `'#'` is
rejected; adding a variable whose name is already registered also fails
before any node is created, but with the engine's duplicate-name error
rather than a `ValueError`, because the facade's own registration check is
commented out. -/
theorem C4_add_fails (d : DBN) (v : GVar) (hwf : d.wfFacade) :
    (containsSep d.sep v.name = true → d.add v = .error .valueSeparator) ∧
    (containsSep d.sep v.name = false → v.name ∈ d.vars → 0 < d.k →
      d.add v = .error .duplicateLabel ∧ PyErr.duplicateLabel.isValueError = false) := by
  constructor
  · intro h
    simp [DBN.add, h]
  · intro h hreg hk
    refine ⟨?_, rfl⟩
    have hex : d.kTBN.existsName (_userToCodeName d.sep v.name 0) = true :=
      hwf.2.1 v.name hreg 0 hk
    have hrange : List.range d.k = 0 :: (List.range (d.k - 1)).map Nat.succ := by
      conv_lhs => rw [show d.k = (d.k - 1) + 1 by omega]
      rw [List.range_succ_eq_map]
    rw [DBN.add, if_neg (by simp [h]), hrange, foldlM_cons_except]
    have hstep : d.kTBN.addNodeE
        { name := _userToCodeName d.sep v.name 0
          domSize := v.domSize
          descr := v.descr ++ " (t=" ++ (⟨decDigits 0⟩ : String) ++ ")" }
        = .error .duplicateLabel := by
      simp [BN.addNodeE, hex]
    rw [hstep, error_bind, error_bind]

/-- C4, witness: a facade with `"A"` registered; `add` of `⟨"X#1", ...⟩` and
a second `add` of `"A"` both fail, in the ways the theorem states. -/
theorem C4_add_fails_witness :
    ∃ d : DBN,
      d.wfFacade ∧
      containsSep d.sep "X#1" = true ∧
      containsSep d.sep "A" = false ∧ "A" ∈ d.vars ∧ 0 < d.k ∧
      d.add ⟨"X#1", 2, "X"⟩ = .error .valueSeparator ∧
      (d.add ⟨"A", 2, "A"⟩ = .error .duplicateLabel ∧
        PyErr.duplicateLabel.isValueError = false) := by
  refine ⟨(((DynamicBayesNet 3 '#').add ⟨"A", 2, "A"⟩).toOption).getD
    (DynamicBayesNet 3 '#'), by decide, by decide, by decide, by decide, by decide,
    ?_, ?_⟩
  · exact (C4_add_fails _ ⟨"X#1", 2, "X"⟩ (by decide)).1 (by decide)
  · exact (C4_add_fails _ ⟨"A", 2, "A"⟩ (by decide)).2 (by decide) (by decide) (by decide)

/-! ### Claim C5 -/

/-- C5 (amended): `DynamicBayesNet.addArc` on endpoints `(n1,t1)`,
`(n2,t2)` of a wellformed facade: a backward arc (`t1 > t2`) always fails
with the backward-arc `ValueError` (the spec's OrderingError); otherwise an
endpoint slice at or above the horizon fails with the span `ValueError`
(the spec's HorizonError); otherwise an unregistered endpoint name fails
with the engine's `NotFound`.  With `t1 ≤ t2 < k` and both names registered
the call reaches the engine's `addArc`, which fails with
`InvalidDirectedCycle` when the head already reaches the tail (in
particular on a self-arc), fails with `DuplicateElement` when the arc is
already present, and otherwise succeeds and inserts exactly the directed
edge between the corresponding flat nodes. -/
theorem C5_addArc_cases (d : DBN) (hwf : d.wfFacade) (n₁ n₂ : String) (t₁ t₂ : Nat)
    (hn₁ : d.sep ∉ n₁.data) (hn₂ : d.sep ∉ n₂.data) :
    (t₂ < t₁ → d.addArc (n₁, t₁) (n₂, t₂) = .error .valueBackwardArc) ∧
    (t₁ ≤ t₂ → (d.k ≤ t₁ ∨ d.k ≤ t₂) →
      d.addArc (n₁, t₁) (n₂, t₂) = .error .valueArcSpan) ∧
    (t₁ ≤ t₂ → t₂ < d.k → (n₁ ∉ d.vars ∨ n₂ ∉ d.vars) →
      d.addArc (n₁, t₁) (n₂, t₂) = .error .notFound) ∧
    (t₁ ≤ t₂ → t₂ < d.k → n₁ ∈ d.vars → n₂ ∈ d.vars →
      reachableIn d.kTBN.arcs d.kTBN.arcs.length
          (_userToCodeName d.sep n₂ t₂) (_userToCodeName d.sep n₁ t₁) = true →
      d.addArc (n₁, t₁) (n₂, t₂) = .error .invalidDirectedCycle) ∧
    (t₁ ≤ t₂ → t₂ < d.k → n₁ ∈ d.vars → n₂ ∈ d.vars →
      reachableIn d.kTBN.arcs d.kTBN.arcs.length
          (_userToCodeName d.sep n₂ t₂) (_userToCodeName d.sep n₁ t₁) = false →
      (_userToCodeName d.sep n₁ t₁, _userToCodeName d.sep n₂ t₂) ∈ d.kTBN.arcs →
      d.addArc (n₁, t₁) (n₂, t₂) = .error .duplicateElement) ∧
    (t₁ ≤ t₂ → t₂ < d.k → n₁ ∈ d.vars → n₂ ∈ d.vars →
      reachableIn d.kTBN.arcs d.kTBN.arcs.length
          (_userToCodeName d.sep n₂ t₂) (_userToCodeName d.sep n₁ t₁) = false →
      (_userToCodeName d.sep n₁ t₁, _userToCodeName d.sep n₂ t₂) ∉ d.kTBN.arcs →
      d.addArc (n₁, t₁) (n₂, t₂) = .ok { d with kTBN := d.kTBN.addArcE (_userToCodeName d.sep n₁ t₁) (_userToCodeName d.sep n₂ t₂) }) := by
  refine ⟨?_, ?_, ?_, ?_, ?_, ?_⟩
  · intro h
    simp [DBN.addArc, h]
  · intro hle hk
    rw [DBN.addArc, if_neg (by omega)]
    have hcond : (decide (d.k ≤ t₁) || decide (d.k ≤ t₂)) = true := by
      rcases hk with hk | hk <;> simp [hk]
    simp [hcond]
  · intro hle hk hur
    have ht₁ : t₁ < d.k := by omega
    rw [DBN.addArc, if_neg (by omega), if_neg (by simp; omega)]
    rcases hur with hur | hur
    · have : d.kTBN.existsName (_userToCodeName d.sep n₁ t₁) = false :=
        existsName_of_not_registered hwf hn₁ hur t₁
      simp [DBN.idFromName, this]
      rfl
    · by_cases hr₁ : n₁ ∈ d.vars
      · have e₁ : d.kTBN.existsName (_userToCodeName d.sep n₁ t₁) = true :=
          hwf.2.1 n₁ hr₁ t₁ ht₁
        have e₂ : d.kTBN.existsName (_userToCodeName d.sep n₂ t₂) = false :=
          existsName_of_not_registered hwf hn₂ hur t₂
        simp [DBN.idFromName, e₁, e₂]
        rfl
      · have : d.kTBN.existsName (_userToCodeName d.sep n₁ t₁) = false :=
          existsName_of_not_registered hwf hn₁ hr₁ t₁
        simp [DBN.idFromName, this]
        rfl
  · intro hle hk hr₁ hr₂ hcyc
    have e₁ : d.kTBN.existsName (_userToCodeName d.sep n₁ t₁) = true :=
      hwf.2.1 n₁ hr₁ t₁ (by omega)
    have e₂ : d.kTBN.existsName (_userToCodeName d.sep n₂ t₂) = true :=
      hwf.2.1 n₂ hr₂ t₂ hk
    have hch : d.kTBN.addArcChecked (_userToCodeName d.sep n₁ t₁)
        (_userToCodeName d.sep n₂ t₂) = .error .invalidDirectedCycle := by
      rw [BN.addArcChecked, if_pos hcyc]
    rw [DBN.addArc, if_neg (by omega), if_neg (by simp; omega)]
    simp only [DBN.idFromName, e₁, e₂, if_true]
    show d.kTBN.addArcChecked (_userToCodeName d.sep n₁ t₁)
        (_userToCodeName d.sep n₂ t₂) >>= (fun bn => Except.ok (DBN.mk bn d.vars d.k d.sep))
      = Except.error PyErr.invalidDirectedCycle
    rw [hch]
    rfl
  · intro hle hk hr₁ hr₂ hcyc hdup
    have e₁ : d.kTBN.existsName (_userToCodeName d.sep n₁ t₁) = true :=
      hwf.2.1 n₁ hr₁ t₁ (by omega)
    have e₂ : d.kTBN.existsName (_userToCodeName d.sep n₂ t₂) = true :=
      hwf.2.1 n₂ hr₂ t₂ hk
    have hch : d.kTBN.addArcChecked (_userToCodeName d.sep n₁ t₁)
        (_userToCodeName d.sep n₂ t₂) = .error .duplicateElement := by
      rw [BN.addArcChecked, if_neg (by simp [hcyc]), if_pos hdup]
    rw [DBN.addArc, if_neg (by omega), if_neg (by simp; omega)]
    simp only [DBN.idFromName, e₁, e₂, if_true]
    show d.kTBN.addArcChecked (_userToCodeName d.sep n₁ t₁)
        (_userToCodeName d.sep n₂ t₂) >>= (fun bn => Except.ok (DBN.mk bn d.vars d.k d.sep))
      = Except.error PyErr.duplicateElement
    rw [hch]
    rfl
  · intro hle hk hr₁ hr₂ hcyc hdup
    have e₁ : d.kTBN.existsName (_userToCodeName d.sep n₁ t₁) = true :=
      hwf.2.1 n₁ hr₁ t₁ (by omega)
    have e₂ : d.kTBN.existsName (_userToCodeName d.sep n₂ t₂) = true :=
      hwf.2.1 n₂ hr₂ t₂ hk
    have hch : d.kTBN.addArcChecked (_userToCodeName d.sep n₁ t₁)
        (_userToCodeName d.sep n₂ t₂)
        = .ok (d.kTBN.addArcE (_userToCodeName d.sep n₁ t₁)
            (_userToCodeName d.sep n₂ t₂)) := by
      rw [BN.addArcChecked, if_neg (by simp [hcyc]), if_neg hdup]
    rw [DBN.addArc, if_neg (by omega), if_neg (by simp; omega)]
    simp only [DBN.idFromName, e₁, e₂, if_true]
    show d.kTBN.addArcChecked (_userToCodeName d.sep n₁ t₁)
        (_userToCodeName d.sep n₂ t₂) >>= (fun bn => Except.ok (DBN.mk bn d.vars d.k d.sep))
      = Except.ok (DBN.mk (d.kTBN.addArcE (_userToCodeName d.sep n₁ t₁)
          (_userToCodeName d.sep n₂ t₂)) d.vars d.k d.sep)
    rw [hch]
    rfl

/-- The facade with horizon 3 and variables `"A"`, `"B"` (domain size 2),
built through `DynamicBayesNet.add`; used as a concrete witness input. -/
def dbnAB : DBN :=
  ((((DynamicBayesNet 3 '#').add ⟨"A", 2, "A"⟩ >>=
    fun d => d.add ⟨"B", 2, "B"⟩)).toOption).getD (DynamicBayesNet 3 '#')

/-! ### Claim C8 -/

/-- C8: on registered endpoints, `DynamicBayesNet.eraseArc` always succeeds,
asking the engine to remove the arc; when the arc is absent the graph is
returned unchanged (a no-op, not an error), and when present exactly that
arc is removed (an arc of the result is an arc of the original other than
the erased one). -/
theorem C8_eraseArc_absent_noop (d : DBN) (n₁ n₂ : String) (t₁ t₂ : Nat)
    (h₁ : d.kTBN.existsName (_userToCodeName d.sep n₁ t₁) = true)
    (h₂ : d.kTBN.existsName (_userToCodeName d.sep n₂ t₂) = true) :
    (d.eraseArc (n₁, t₁) (n₂, t₂) = .ok { d with kTBN := d.kTBN.eraseArcE (_userToCodeName d.sep n₁ t₁) (_userToCodeName d.sep n₂ t₂) }) ∧
    ((_userToCodeName d.sep n₁ t₁, _userToCodeName d.sep n₂ t₂) ∉ d.kTBN.arcs →
      d.eraseArc (n₁, t₁) (n₂, t₂) = .ok d) ∧
    (∀ a, a ∈ (d.kTBN.eraseArcE
        (_userToCodeName d.sep n₁ t₁) (_userToCodeName d.sep n₂ t₂)).arcs ↔
      a ∈ d.kTBN.arcs ∧
        a ≠ (_userToCodeName d.sep n₁ t₁, _userToCodeName d.sep n₂ t₂)) := by
  have hbase : d.eraseArc (n₁, t₁) (n₂, t₂) = .ok { d with kTBN := d.kTBN.eraseArcE (_userToCodeName d.sep n₁ t₁) (_userToCodeName d.sep n₂ t₂) } := by
    simp [DBN.eraseArc, DBN.idFromName, h₁, h₂]
    rfl
  have hmem : ∀ a, a ∈ (d.kTBN.eraseArcE
      (_userToCodeName d.sep n₁ t₁) (_userToCodeName d.sep n₂ t₂)).arcs ↔
      a ∈ d.kTBN.arcs ∧
        a ≠ (_userToCodeName d.sep n₁ t₁, _userToCodeName d.sep n₂ t₂) := by
    intro a
    rw [BN.eraseArcE]
    simp only [List.mem_filter, Bool.not_eq_true', Bool.and_eq_false_imp]
    constructor
    · rintro ⟨ha, hp⟩
      refine ⟨ha, ?_⟩
      intro he
      rw [he] at hp
      simp at hp
    · rintro ⟨ha, hne⟩
      refine ⟨ha, ?_⟩
      cases a with
      | mk a₁ a₂ =>
        by_cases hb : a₁ = _userToCodeName d.sep n₁ t₁
        · subst hb
          simp only [beq_self_eq_true, Bool.not_true, Bool.and_eq_false_imp]
          intro _
          rw [beq_eq_false_iff_ne]
          intro hb₂
          exact hne (by rw [hb₂])
        · simp [Bool.and_eq_false_iff, beq_eq_false_iff_ne, hb]
  refine ⟨hbase, ?_, hmem⟩
  · intro habs
    have hfix : (d.kTBN.arcs.filter (fun p =>
        !(p.1 == _userToCodeName d.sep n₁ t₁ && p.2 == _userToCodeName d.sep n₂ t₂)))
        = d.kTBN.arcs := by
      apply List.filter_eq_self.mpr
      intro a ha
      cases a with
      | mk a₁ a₂ =>
        by_cases hb : a₁ = _userToCodeName d.sep n₁ t₁
        · subst hb
          have : a₂ ≠ _userToCodeName d.sep n₂ t₂ := by
            intro he
            exact habs (he ▸ ha)
          simp [this]
        · simp [hb]
    rw [hbase]
    congr 1
    rw [BN.eraseArcE]
    rw [hfix]

/-- C8, witness at a facade with the arc `A#0 → B#1` present: erasing the
absent arc `A#0 → B#2` is a no-op returning the facade unchanged, and
erasing the present arc removes exactly it. -/
theorem C8_eraseArc_absent_noop_witness :
    ∃ d : DBN,
      d.kTBN.existsName (_userToCodeName d.sep "A" 0) = true ∧
      d.kTBN.existsName (_userToCodeName d.sep "B" 2) = true ∧
      (_userToCodeName d.sep "A" 0, _userToCodeName d.sep "B" 2) ∉ d.kTBN.arcs ∧
      d.eraseArc ("A", 0) ("B", 2) = .ok d := by
  refine ⟨(dbnAB.addArc ("A", 0) ("B", 1)).toOption.getD dbnAB,
    by decide, by decide, by decide, ?_⟩
  exact (C8_eraseArc_absent_noop _ "A" "B" 0 2 (by decide) (by decide)).2.1 (by decide)

/-! ## The tensor wrapper (`dPotential`) -/

/-- A dictionary key as passed to `dPotential.__getitem__`/`__setitem__`:
either a `(name, slice)` tuple or a value of some other type (carrying an
arbitrary tag, irrelevant except for not being a tuple). -/
inductive PyKey where
  | tup : String → Nat → PyKey
  | nonTuple : String → PyKey
deriving DecidableEq

/-- Whether a dict key is a tuple (`isinstance(var, tuple)`). -/
def PyKey.isTuple : PyKey → Bool
  | .tup _ _ => true
  | .nonTuple _ => false

/-- The engine potential (pyAgrum `Potential`), indexed by dict evidence
given as an association of flat names to states. -/
structure Pot where
  get : List (String × Nat) → ℚ

/-- The engine's own `__setitem__` on a potential. -/
def Pot.engineSet (p : Pot) (key : List (String × Nat)) (v : ℚ) : Pot :=
  ⟨fun q => if q = key then v else p.get q⟩

/-- The key-translation loop shared by `dPotential.__getitem__` and
`__setitem__`: each tuple key `(n, t)` becomes the flat name `n<sep>t`; any
non-tuple key raises `ValueError("Invalid key format: ...")`. -/
def translateKey (sep : Char) : List (PyKey × Nat) → Except PyErr (List (String × Nat))
  | [] => .ok []
  | (.tup n t, st) :: rest => do
    let r ← translateKey sep rest
    .ok ((_userToCodeName sep n t, st) :: r)
  | (.nonTuple _, _) :: _ => .error .valueInvalidKey

/-- `dPotential.__getitem__` with a dict key: translate every user key, then
read the engine potential. -/
def dPotential.getItem (sep : Char) (p : Pot) (key : List (PyKey × Nat)) :
    Except PyErr ℚ := do
  let ik ← translateKey sep key
  .ok (p.get ik)

/-- `dPotential.__setitem__` with a dict key; returns the post-state of the
wrapped potential together with the raised exception, if any.  The
translation loop runs to completion before the write is delegated to the
engine, so on a translation error the potential is unchanged. -/
def dPotential.setItem (sep : Char) (p : Pot) (key : List (PyKey × Nat)) (v : ℚ) :
    Pot × Option PyErr :=
  match translateKey sep key with
  | .error e => (p, some e)
  | .ok ik => (p.engineSet ik v, none)

theorem translateKey_nonTuple {sep : Char} :
    ∀ {key : List (PyKey × Nat)}, (key.any fun kv => !kv.1.isTuple) = true →
      translateKey sep key = .error .valueInvalidKey := by
  intro key
  induction key with
  | nil => intro h; simp at h
  | cons kv rest ih =>
    intro h
    match kv with
    | (.nonTuple _, _) => rfl
    | (.tup n t, st) =>
      simp only [List.any_cons, PyKey.isTuple, Bool.not_true, Bool.false_or] at h
      rw [translateKey, ih h, error_bind]

/-! ### Claim C10 -/

/-- C10: if any key of a dict evidence mapping passed to
`dPotential.__getitem__` or `__setitem__` is not a tuple, the operation
raises `ValueError` ("Invalid key format"), and in the `__setitem__` case
the wrapped potential is returned unchanged — the error is raised while
translating keys, before any write is delegated to the engine. -/
theorem C10_invalid_key (sep : Char) (p : Pot) (key : List (PyKey × Nat)) (v : ℚ)
    (h : (key.any fun kv => !kv.1.isTuple) = true) :
    dPotential.getItem sep p key = .error .valueInvalidKey ∧
      dPotential.setItem sep p key v = (p, some .valueInvalidKey) := by
  constructor
  · rw [dPotential.getItem, translateKey_nonTuple h, error_bind]
  · rw [dPotential.setItem, translateKey_nonTuple h]

/-- C10, witness: a two-entry mapping whose second key is not a tuple. -/
theorem C10_invalid_key_witness :
    (([((PyKey.tup "A" 0 : PyKey), 1), ((PyKey.nonTuple "bad" : PyKey), 0)].any
        fun kv => !kv.1.isTuple) = true) ∧
      (dPotential.getItem '#' ⟨fun _ => 0⟩
          [(PyKey.tup "A" 0, 1), (PyKey.nonTuple "bad", 0)]
        = .error .valueInvalidKey ∧
      dPotential.setItem '#' ⟨fun _ => 0⟩
          [(PyKey.tup "A" 0, 1), (PyKey.nonTuple "bad", 0)] (1/2)
        = (⟨fun _ => 0⟩, some .valueInvalidKey)) :=
  ⟨by decide, C10_invalid_key '#' ⟨fun _ => 0⟩
    [(PyKey.tup "A" 0, 1), (PyKey.nonTuple "bad", 0)] (1/2) (by decide)⟩

/-! ## The unroller (`unrollKTBN` in `src/notebook.py`)

`unrollKTBN(dbn, nbr)` checks `nbr ≥ k`, copies the template's flat graph,
and then, for every new slice `t ∈ [k, nbr)` and registered variable, adds a
node, replays the transition arcs shifted to slice `t`, and copies the CPT
of the slice-`(t-1)` instance through a rename mapping. -/

/-- The per-parent loop body of `unrollKTBN`: decode the parent's base name
and template slice, compute the lag `d = (k-1) - parent_ts`, add the arc
from the slice-`(t-d)` instance to the new node, and extend the CPT rename
mapping with `new_parent ↦ prev_parent`. -/
def parentStep (sep : Char) (k t : Nat) (newVar : String)
    (acc : BN × List (String × String)) (parent : String) : BN × List (String × String) :=
  let pb := (decodeNode sep parent).1
  let dd := (k - 1) - (decodeNode sep parent).2
  (acc.1.addArcE (_userToCodeName sep pb (t - dd)) newVar,
    acc.2 ++ [(_userToCodeName sep pb (t - dd), _userToCodeName sep pb (t - dd - 1))])

/-- The body of the double loop of `unrollKTBN` for one new slice `t` and one
registered variable `var`: create the slice-`t` node (cloned from the
slice-0 instance), add one arc per parent of the slice-`(k-1)` template
instance, and fill the new node's CPT from the slice-`(t-1)` CPT through the
accumulated rename mapping. -/
def unrollVarStep (sep : Char) (k : Nat) (bn : BN) (t : Nat) (var : String) : BN :=
  let newVar := _userToCodeName sep var t
  let templateVar := bn.findVar (_userToCodeName sep var 0)
  let bn₁ := bn.addNode
    { name := newVar
      domSize := templateVar.domSize
      descr := templateVar.descr ++ " (t=" ++ (⟨decDigits t⟩ : String) ++ ")" }
  let templateNode := _userToCodeName sep var (k - 1)
  let res := (bn₁.parents templateNode).foldl (parentStep sep k t newVar)
    (bn₁, [(newVar, _userToCodeName sep var (t - 1))])
  res.1.fillWithMap newVar (res.1.getCpt (_userToCodeName sep var (t - 1))) res.2

/-- The double loop of `unrollKTBN`, starting from the copied template. -/
def unrollCore (d : DBN) (nbr : Nat) : BN :=
  (List.range' d.k (nbr - d.k)).foldl
    (fun bn t => d.vars.foldl (fun bn v => unrollVarStep d.sep d.k bn t v) bn) d.kTBN

/-- `unrollKTBN(dbn, nbr)`: raise `ValueError` when `nbr < k`, otherwise copy
the template and run the unrolling loop on the copy. -/
def unrollKTBN (d : DBN) (nbr : Nat) : Except PyErr BN :=
  if nbr < d.k then .error .valueUnrollTooShort
  else .ok (unrollCore d nbr)

/-- The recorded transition pattern of head-base `hb` (spec step 3): for each
parent of the template instance `(hb, k-1)`, its base name `tb` and its lag
`d = (k-1) - parent_ts`. -/
def recorded (d : DBN) (hb : String) : List (String × Nat) :=
  (d.kTBN.parents (_userToCodeName d.sep hb (d.k - 1))).map
    (fun p => ((decodeNode d.sep p).1, (d.k - 1) - (decodeNode d.sep p).2))

/-- The arcs added into the slice-`t` instance of head-base `hb` (spec step
4): one arc from `(tb, t-d)` to `(hb, t)` per recorded pair `(tb, d)`. -/
def newArcs (d : DBN) (t : Nat) (hb : String) : List (String × String) :=
  (recorded d hb).map
    (fun r => (_userToCodeName d.sep r.1 (t - r.2), _userToCodeName d.sep hb t))

/-- The CPT rename mapping used when filling the slice-`t` CPT of head-base
`hb` from its slice-`(t-1)` CPT (spec step 5): the head `(hb,t)` maps to
`(hb,t-1)` and each recorded parent `(tb, t-d)` maps to `(tb, t-d-1)`. -/
def mapFor (d : DBN) (t : Nat) (hb : String) : List (String × String) :=
  (_userToCodeName d.sep hb t, _userToCodeName d.sep hb (t - 1)) ::
    (recorded d hb).map
      (fun r => (_userToCodeName d.sep r.1 (t - r.2), _userToCodeName d.sep r.1 (t - r.2 - 1)))

/-- Template wellformedness, as established by the facade API: registered
names are separator-free and pairwise distinct; every arc endpoint is the
encoding of a registered name at a slice below the horizon; there are no
self-loop arcs; and the separator is not a digit. -/
def DBN.wfTemplate (d : DBN) : Prop :=
  (∀ v ∈ d.vars, d.sep ∉ v.data) ∧
  d.vars.Nodup ∧
  (∀ ab ∈ d.kTBN.arcs,
    (∃ v ∈ d.vars, ∃ s, s < d.k ∧ ab.1 = _userToCodeName d.sep v s) ∧
    (∃ v ∈ d.vars, ∃ s, s < d.k ∧ ab.2 = _userToCodeName d.sep v s)) ∧
  (∀ ab ∈ d.kTBN.arcs, ab.1 ≠ ab.2) ∧
  SepNotDigit d.sep

instance (d : DBN) : Decidable d.wfTemplate := by
  unfold DBN.wfTemplate; infer_instance

/-! ### Elementary lemmas about the engine model -/

theorem mem_parents (bn : BN) (p h : String) :
    p ∈ bn.parents h ↔ (p, h) ∈ bn.arcs := by
  rw [BN.parents]
  simp only [List.mem_map, List.mem_filter, beq_iff_eq]
  constructor
  · rintro ⟨⟨a, b⟩, ⟨hm, hb⟩, hfst⟩
    simp only at hfst hb
    rw [← hfst, ← hb] at *
    exact hm
  · intro hm
    exact ⟨(p, h), ⟨hm, rfl⟩, rfl⟩

theorem getCpt_congr {bn bn' : BN} (h : bn.cpts = bn'.cpts) : bn.getCpt = bn'.getCpt := by
  funext x
  rw [BN.getCpt, BN.getCpt, h]

theorem parents_congr {bn bn' : BN} (h : bn.arcs = bn'.arcs) : bn.parents = bn'.parents := by
  funext x
  rw [BN.parents, BN.parents, h]

theorem find?_append_none {α : Type} (p : α → Bool) {l₁ : List α} (l₂ : List α)
    (h : l₁.find? p = none) : (l₁ ++ l₂).find? p = l₂.find? p := by
  induction l₁ with
  | nil => rfl
  | cons a l ih =>
    cases hp : p a with
    | true =>
      rw [List.find?_cons_of_pos _ hp] at h
      exact absurd h (by simp)
    | false =>
      rw [List.find?_cons_of_neg _ (by simp [hp])] at h
      rw [List.cons_append, List.find?_cons_of_neg _ (by simp [hp])]
      exact ih h

theorem getCpt_setCpt_same (bn : BN) (x : String) (f : Cpt) :
    (bn.setCpt x f).getCpt x = f := by
  rw [BN.setCpt, BN.getCpt]
  simp

theorem getCpt_setCpt_ne (bn : BN) (x y : String) (f : Cpt) (h : y ≠ x) :
    (bn.setCpt x f).getCpt y = bn.getCpt y := by
  rw [BN.setCpt, BN.getCpt, BN.getCpt]
  have : (((x, f) : String × Cpt).1 == y) = false := by
    simpa using Ne.symm h
  rw [List.find?_cons_of_neg _ (by simp [this])]

theorem getCpt_pre_append (bn : BN) (pre : List (String × Cpt)) (rest : List (String × Cpt))
    (x : String) (hcpts : bn.cpts = pre ++ rest)
    (hx : ∀ kv ∈ pre, kv.1 ≠ x) :
    bn.getCpt x = (((rest.find? (fun p => p.1 == x)).map Prod.snd).getD (fun _ => 0)) := by
  rw [BN.getCpt, hcpts, find?_append_none]
  rw [List.find?_eq_none]
  intro kv hkv
  simpa using hx kv hkv

/-! ### Characterization of one `unrollVarStep` -/

/-- The tail node name of the arc that `unrollKTBN` adds for a given parent
of the slice-`(k-1)` template instance, at new slice `t`. -/
def tailOfParent (sep : Char) (k t : Nat) (p : String) : String :=
  _userToCodeName sep (decodeNode sep p).1 (t - ((k - 1) - (decodeNode sep p).2))

/-- The slice-shifted-down counterpart of `tailOfParent`, used as the rename
target in the CPT mapping. -/
def prevOfParent (sep : Char) (k t : Nat) (p : String) : String :=
  _userToCodeName sep (decodeNode sep p).1 (t - ((k - 1) - (decodeNode sep p).2) - 1)

theorem parentStep_foldl (sep : Char) (k t : Nat) (nv : String) :
    ∀ (ps : List String) (bn : BN) (m : List (String × String)),
      (ps.foldl (parentStep sep k t nv) (bn, m)).1.nodes = bn.nodes ∧
      (ps.foldl (parentStep sep k t nv) (bn, m)).1.cpts = bn.cpts ∧
      (ps.foldl (parentStep sep k t nv) (bn, m)).1.arcs
        = bn.arcs ++ ps.map (fun p => (tailOfParent sep k t p, nv)) ∧
      (ps.foldl (parentStep sep k t nv) (bn, m)).2
        = m ++ ps.map (fun p => (tailOfParent sep k t p, prevOfParent sep k t p)) := by
  intro ps
  induction ps with
  | nil => intro bn m; simp
  | cons p ps ih =>
    intro bn m
    have hstep : parentStep sep k t nv (bn, m) p
        = (bn.addArcE (tailOfParent sep k t p) nv,
            m ++ [(tailOfParent sep k t p, prevOfParent sep k t p)]) := rfl
    rw [List.foldl_cons, hstep]
    obtain ⟨hn, hc, ha, hm⟩ := ih (bn.addArcE (tailOfParent sep k t p) nv)
      (m ++ [(tailOfParent sep k t p, prevOfParent sep k t p)])
    refine ⟨hn, hc, ?_, ?_⟩
    · rw [ha, BN.addArcE]
      simp
    · rw [hm]
      simp

theorem unrollVarStep_spec (sep : Char) (k : Nat) (bn : BN) (t : Nat) (var : String) :
    (unrollVarStep sep k bn t var).arcs
      = bn.arcs ++ (bn.parents (_userToCodeName sep var (k - 1))).map
          (fun p => (tailOfParent sep k t p, _userToCodeName sep var t)) ∧
    (unrollVarStep sep k bn t var).cpts
      = (_userToCodeName sep var t,
          fun e => bn.getCpt (_userToCodeName sep var (t - 1))
            (renameEvd ((_userToCodeName sep var t, _userToCodeName sep var (t - 1)) ::
              (bn.parents (_userToCodeName sep var (k - 1))).map
                (fun p => (tailOfParent sep k t p, prevOfParent sep k t p))) e))
        :: bn.cpts := by
  set gv : GVar :=
    { name := _userToCodeName sep var t
      domSize := (bn.findVar (_userToCodeName sep var 0)).domSize
      descr := (bn.findVar (_userToCodeName sep var 0)).descr
        ++ " (t=" ++ (⟨decDigits t⟩ : String) ++ ")" } with hgv
  set res := ((bn.addNode gv).parents (_userToCodeName sep var (k - 1))).foldl
    (parentStep sep k t (_userToCodeName sep var t))
    (bn.addNode gv, [(_userToCodeName sep var t, _userToCodeName sep var (t - 1))])
    with hres
  have hdef : unrollVarStep sep k bn t var
      = res.1.fillWithMap (_userToCodeName sep var t)
          (res.1.getCpt (_userToCodeName sep var (t - 1))) res.2 := rfl
  obtain ⟨hn, hc, ha, hm⟩ := parentStep_foldl sep k t (_userToCodeName sep var t)
    ((bn.addNode gv).parents (_userToCodeName sep var (k - 1))) (bn.addNode gv)
    [(_userToCodeName sep var t, _userToCodeName sep var (t - 1))]
  rw [← hres] at hn hc ha hm
  have harcs₀ : (bn.addNode gv).arcs = bn.arcs := rfl
  have hcpts₀ : (bn.addNode gv).cpts = bn.cpts := rfl
  have hpar₀ : (bn.addNode gv).parents = bn.parents := parents_congr harcs₀
  have hw₁ : (res.1.fillWithMap (_userToCodeName sep var t)
      (res.1.getCpt (_userToCodeName sep var (t - 1))) res.2).arcs = res.1.arcs := rfl
  have hw₂ : (res.1.fillWithMap (_userToCodeName sep var t)
      (res.1.getCpt (_userToCodeName sep var (t - 1))) res.2).cpts
      = (_userToCodeName sep var t,
          fun e => res.1.getCpt (_userToCodeName sep var (t - 1)) (renameEvd res.2 e))
        :: res.1.cpts := rfl
  have hgc : res.1.getCpt = bn.getCpt := getCpt_congr (by rw [hc, hcpts₀])
  constructor
  · rw [hdef, hw₁, ha, harcs₀, hpar₀]
  · rw [hdef, hw₂, hm, hc, hcpts₀, hgc, hpar₀]
    rfl

/-! ### The unrolling invariant

`Inv d P bn` describes the engine graph after the unrolling loop has
processed the slice/variable pairs `P` (in order): the arcs are the
template's arcs followed by the derived arcs of each processed pair; the
CPT list is the template's with one new entry per processed pair; and each
processed pair's CPT is the rename-copy of its predecessor slice's CPT. -/

def PWf (d : DBN) (P : List (Nat × String)) : Prop :=
  ∀ tv ∈ P, d.k ≤ tv.1 ∧ tv.2 ∈ d.vars

def Inv (d : DBN) (P : List (Nat × String)) (bn : BN) : Prop :=
  bn.arcs = d.kTBN.arcs ++ (P.map (fun tv => newArcs d tv.1 tv.2)).flatten ∧
  (∃ pre, bn.cpts = pre ++ d.kTBN.cpts ∧
    pre.map Prod.fst = (P.map (fun tv => _userToCodeName d.sep tv.2 tv.1)).reverse) ∧
  (∀ tv ∈ P, ∀ e, bn.getCpt (_userToCodeName d.sep tv.2 tv.1) e
    = bn.getCpt (_userToCodeName d.sep tv.2 (tv.1 - 1)) (renameEvd (mapFor d tv.1 tv.2) e))

theorem enc_inj_of_wf {d : DBN} (hwf : d.wfTemplate) {v w : String}
    (hv : v ∈ d.vars) (hw : w ∈ d.vars) {t s : Nat}
    (he : _userToCodeName d.sep v t = _userToCodeName d.sep w s) : v = w ∧ t = s :=
  userToCodeName_inj (hwf.1 v hv) (hwf.1 w hw) he

theorem newArcs_eq_map (d : DBN) (t : Nat) (v : String) :
    newArcs d t v = (d.kTBN.parents (_userToCodeName d.sep v (d.k - 1))).map
      (fun p => (tailOfParent d.sep d.k t p, _userToCodeName d.sep v t)) := by
  rw [newArcs, recorded, List.map_map]
  rfl

theorem mapFor_eq_map (d : DBN) (t : Nat) (v : String) :
    mapFor d t v = (_userToCodeName d.sep v t, _userToCodeName d.sep v (t - 1)) ::
      (d.kTBN.parents (_userToCodeName d.sep v (d.k - 1))).map
        (fun p => (tailOfParent d.sep d.k t p, prevOfParent d.sep d.k t p)) := by
  rw [mapFor, recorded, List.map_map]
  rfl

theorem join_heads {d : DBN} {P : List (Nat × String)}
    {ab : String × String}
    (hab : ab ∈ (P.map (fun tv => newArcs d tv.1 tv.2)).flatten) :
    ∃ tv ∈ P, ab.2 = _userToCodeName d.sep tv.2 tv.1 := by
  rw [List.mem_flatten] at hab
  obtain ⟨L, hL, habL⟩ := hab
  rw [List.mem_map] at hL
  obtain ⟨tv, htv, rfl⟩ := hL
  refine ⟨tv, htv, ?_⟩
  rw [newArcs, List.mem_map] at habL
  obtain ⟨r, _, rfl⟩ := habL
  rfl

theorem parents_preserved {d : DBN} (hwf : d.wfTemplate) {P : List (Nat × String)}
    {bn : BN} (hinv : Inv d P bn) (hP : PWf d P) {w : String} (hw : w ∈ d.vars)
    {s : Nat} (hs : s < d.k) :
    bn.parents (_userToCodeName d.sep w s) = d.kTBN.parents (_userToCodeName d.sep w s) := by
  rw [BN.parents, BN.parents, hinv.1, List.filter_append]
  have hfil : ((P.map (fun tv => newArcs d tv.1 tv.2)).flatten.filter
      (fun p => p.2 == _userToCodeName d.sep w s)) = [] := by
    rw [List.filter_eq_nil_iff]
    intro ab hab
    obtain ⟨tv, htv, hhead⟩ := join_heads hab
    simp only [beq_iff_eq, hhead]
    intro he
    obtain ⟨_, hts⟩ := enc_inj_of_wf hwf (hP tv htv).2 hw he
    have := (hP tv htv).1
    omega
  rw [hfil, List.append_nil]

theorem getCpt_template_key {d : DBN} (hwf : d.wfTemplate) {P : List (Nat × String)}
    {bn : BN} (hinv : Inv d P bn) (hP : PWf d P) {w : String} (hw : d.sep ∉ w.data)
    {s : Nat} (hs : s < d.k) :
    bn.getCpt (_userToCodeName d.sep w s) = d.kTBN.getCpt (_userToCodeName d.sep w s) := by
  obtain ⟨pre, hcpts, hkeys⟩ := hinv.2.1
  rw [getCpt_pre_append bn pre d.kTBN.cpts _ hcpts ?_]
  · rfl
  · intro kv hkv he
    have hmem : kv.1 ∈ pre.map Prod.fst := List.mem_map_of_mem Prod.fst hkv
    rw [hkeys, List.mem_reverse, List.mem_map] at hmem
    obtain ⟨tv, htv, hname⟩ := hmem
    rw [he] at hname
    obtain ⟨_, hts⟩ := userToCodeName_inj (hwf.1 tv.2 (hP tv htv).2) hw hname
    have := (hP tv htv).1
    omega

theorem getCpt_cons {bn bn' : BN} {x : String} {f : Cpt}
    (h : bn'.cpts = (x, f) :: bn.cpts) :
    bn'.getCpt x = f ∧ ∀ y, y ≠ x → bn'.getCpt y = bn.getCpt y := by
  constructor
  · rw [BN.getCpt, h, List.find?_cons_of_pos _ (by simp)]
    rfl
  · intro y hy
    rw [BN.getCpt, BN.getCpt, h, List.find?_cons_of_neg _ (by simpa using Ne.symm hy)]

theorem Inv_step {d : DBN} (hwf : d.wfTemplate) (hk : 0 < d.k)
    {P : List (Nat × String)} {bn : BN} (hinv : Inv d P bn) (hP : PWf d P)
    {t : Nat} {v : String} (ht : d.k ≤ t) (hv : v ∈ d.vars)
    (hfresh : (t, v) ∉ P) (hmono : ∀ tv ∈ P, tv.1 ≤ t) :
    Inv d (P ++ [(t, v)]) (unrollVarStep d.sep d.k bn t v) := by
  obtain ⟨hsa, hsc⟩ := unrollVarStep_spec d.sep d.k bn t v
  have hpar : bn.parents (_userToCodeName d.sep v (d.k - 1))
      = d.kTBN.parents (_userToCodeName d.sep v (d.k - 1)) :=
    parents_preserved hwf hinv hP hv (by omega)
  -- the CPT entry added by the step, with template parents substituted in
  have hsc' : (unrollVarStep d.sep d.k bn t v).cpts
      = (_userToCodeName d.sep v t,
          fun e => bn.getCpt (_userToCodeName d.sep v (t - 1))
            (renameEvd (mapFor d t v) e)) :: bn.cpts := by
    rw [hsc, hpar, mapFor_eq_map]
  obtain ⟨hnew, hold⟩ := getCpt_cons hsc'
  -- distinctness of the new key from all keys the invariant talks about
  have hne_old : ∀ tv ∈ P, _userToCodeName d.sep tv.2 tv.1 ≠ _userToCodeName d.sep v t := by
    intro tv htv he
    obtain ⟨hv2, ht2⟩ := enc_inj_of_wf hwf (hP tv htv).2 hv he
    apply hfresh
    have : tv = (t, v) := Prod.ext ht2 hv2
    rw [← this]
    exact htv
  have hne_prev : ∀ tv ∈ P,
      _userToCodeName d.sep tv.2 (tv.1 - 1) ≠ _userToCodeName d.sep v t := by
    intro tv htv he
    obtain ⟨hv2, ht2⟩ := enc_inj_of_wf hwf (hP tv htv).2 hv he
    have h1 := (hP tv htv).1
    have h2 := hmono tv htv
    omega
  have hne_self : _userToCodeName d.sep v (t - 1) ≠ _userToCodeName d.sep v t := by
    intro he
    obtain ⟨_, ht2⟩ := enc_inj_of_wf hwf hv hv he
    omega
  refine ⟨?_, ?_, ?_⟩
  · rw [hsa, hinv.1, hpar, ← newArcs_eq_map]
    simp [List.append_assoc]
  · obtain ⟨pre, hcpts, hkeys⟩ := hinv.2.1
    refine ⟨(_userToCodeName d.sep v t,
        fun e => bn.getCpt (_userToCodeName d.sep v (t - 1))
          (renameEvd (mapFor d t v) e)) :: pre, ?_, ?_⟩
    · rw [hsc', hcpts]
      rfl
    · simp [hkeys]
  · intro tv htv e
    rw [List.mem_append] at htv
    rcases htv with htv | htv
    · -- an already-processed pair: both lookups are unchanged by the step
      rw [hold _ (hne_old tv htv), hold _ (hne_prev tv htv)]
      exact hinv.2.2 tv htv e
    · -- the pair processed by this step
      rw [List.mem_singleton] at htv
      subst htv
      rw [hnew, hold _ hne_self]

theorem Inv_innerFold {d : DBN} (hwf : d.wfTemplate) (hk : 0 < d.k)
    (t : Nat) (ht : d.k ≤ t) :
    ∀ (vs : List String) (P : List (Nat × String)) (bn : BN),
      Inv d P bn → PWf d P → (∀ tv ∈ P, tv.1 ≤ t) →
      (∀ w ∈ vs, w ∈ d.vars) → vs.Nodup → (∀ w ∈ vs, (t, w) ∉ P) →
      Inv d (P ++ vs.map (fun w => (t, w)))
        (vs.foldl (fun bn v => unrollVarStep d.sep d.k bn t v) bn) := by
  intro vs
  induction vs with
  | nil =>
    intro P bn hinv _ _ _ _ _
    simpa using hinv
  | cons w ws ih =>
    intro P bn hinv hP hmono hvars hnd hfresh
    have hstep := Inv_step hwf hk hinv hP ht (hvars w (List.mem_cons_self w ws))
      (hfresh w (List.mem_cons_self w ws)) hmono
    have hP1 : PWf d (P ++ [(t, w)]) := by
      intro tv htv
      rw [List.mem_append, List.mem_singleton] at htv
      rcases htv with htv | htv
      · exact hP tv htv
      · rw [htv]
        exact ⟨ht, hvars w (List.mem_cons_self w ws)⟩
    have hmono1 : ∀ tv ∈ P ++ [(t, w)], tv.1 ≤ t := by
      intro tv htv
      rw [List.mem_append, List.mem_singleton] at htv
      rcases htv with htv | htv
      · exact hmono tv htv
      · rw [htv]
    have hvars1 : ∀ w' ∈ ws, w' ∈ d.vars :=
      fun w' h => hvars w' (List.mem_cons_of_mem w h)
    have hnd1 : ws.Nodup := (List.nodup_cons.mp hnd).2
    have hfresh1 : ∀ w' ∈ ws, (t, w') ∉ P ++ [(t, w)] := by
      intro w' hw' hmem
      rw [List.mem_append, List.mem_singleton] at hmem
      rcases hmem with hmem | hmem
      · exact hfresh w' (List.mem_cons_of_mem w hw') hmem
      · have : w' = w := congrArg Prod.snd hmem
        exact (List.nodup_cons.mp hnd).1 (this ▸ hw')
    have hres := ih (P ++ [(t, w)]) (unrollVarStep d.sep d.k bn t w)
      hstep hP1 hmono1 hvars1 hnd1 hfresh1
    rw [List.foldl_cons]
    rw [List.append_assoc] at hres
    simpa using hres

theorem Inv_outerFold {d : DBN} (hwf : d.wfTemplate) (hk : 0 < d.k) :
    ∀ (m t₀ : Nat) (P : List (Nat × String)) (bn : BN),
      d.k ≤ t₀ → Inv d P bn → PWf d P → (∀ tv ∈ P, tv.1 < t₀) →
      Inv d (P ++ ((List.range' t₀ m).map (fun s => d.vars.map (fun w => (s, w)))).flatten)
        ((List.range' t₀ m).foldl
          (fun bn s => d.vars.foldl (fun bn v => unrollVarStep d.sep d.k bn s v) bn) bn) := by
  intro m
  induction m with
  | zero =>
    intro t₀ P bn _ hinv _ _
    simpa using hinv
  | succ m ih =>
    intro t₀ P bn ht₀ hinv hP hlt
    have hrange : List.range' t₀ (m + 1) = t₀ :: List.range' (t₀ + 1) m := rfl
    rw [hrange, List.foldl_cons]
    have hinner := Inv_innerFold hwf hk t₀ ht₀ d.vars P bn hinv hP
      (fun tv htv => Nat.le_of_lt (hlt tv htv)) (fun w h => h) hwf.2.1
      (fun w _ hmem => absurd (hlt (t₀, w) hmem) (by omega))
    have hP₁ : PWf d (P ++ d.vars.map (fun w => (t₀, w))) := by
      intro tv htv
      rw [List.mem_append, List.mem_map] at htv
      rcases htv with htv | ⟨w, hw, htv⟩
      · exact hP tv htv
      · rw [← htv]
        exact ⟨ht₀, hw⟩
    have hlt₁ : ∀ tv ∈ P ++ d.vars.map (fun w => (t₀, w)), tv.1 < t₀ + 1 := by
      intro tv htv
      rw [List.mem_append, List.mem_map] at htv
      rcases htv with htv | ⟨w, hw, htv⟩
      · have := hlt tv htv
        omega
      · rw [← htv]
        omega
    have hres := ih (t₀ + 1) (P ++ d.vars.map (fun w => (t₀, w)))
      (d.vars.foldl (fun bn v => unrollVarStep d.sep d.k bn t₀ v) bn)
      (by omega) hinner hP₁ hlt₁
    rw [List.append_assoc] at hres
    simpa using hres

theorem Inv_unrollCore {d : DBN} (hwf : d.wfTemplate) (hk : 0 < d.k) (nbr : Nat) :
    Inv d ((List.range' d.k (nbr - d.k)).map
        (fun s => d.vars.map (fun w => (s, w)))).flatten (unrollCore d nbr) := by
  have h0 : Inv d [] d.kTBN := by
    refine ⟨by simp, ⟨[], by simp, by simp⟩, by simp⟩
  have hres := Inv_outerFold hwf hk (nbr - d.k) d.k [] d.kTBN le_rfl h0
    (by intro tv htv; simp at htv) (by intro tv htv; simp at htv)
  simpa [unrollCore] using hres

theorem mem_allPairs {d : DBN} {nbr : Nat} (hn : d.k ≤ nbr) {t : Nat} {w : String} :
    ((t, w) ∈ ((List.range' d.k (nbr - d.k)).map
        (fun s => d.vars.map (fun w => (s, w)))).flatten)
      ↔ (d.k ≤ t ∧ t < nbr ∧ w ∈ d.vars) := by
  rw [List.mem_flatten]
  constructor
  · rintro ⟨L, hL, hmem⟩
    rw [List.mem_map] at hL
    obtain ⟨s, hs, rfl⟩ := hL
    rw [List.mem_range'_1] at hs
    rw [List.mem_map] at hmem
    obtain ⟨w', hw', he⟩ := hmem
    have h1 : s = t := congrArg Prod.fst he
    have h2 : w' = w := congrArg Prod.snd he
    subst h1; subst h2
    exact ⟨hs.1, by omega, hw'⟩
  · rintro ⟨h1, h2, h3⟩
    refine ⟨d.vars.map (fun w => (t, w)), ?_, ?_⟩
    · rw [List.mem_map]
      exact ⟨t, by rw [List.mem_range'_1]; omega, rfl⟩
    · rw [List.mem_map]
      exact ⟨w, h3, rfl⟩

/-! ### Resolving rename-mapping lookups -/

theorem renameEvd_eq_of_find? {m : List (String × String)} {e : Evd} {y : String}
    {p : String × String} (h : m.find? (fun q => q.2 == y) = some p) :
    renameEvd m e y = e p.1 := by
  rw [renameEvd, h]

theorem renameEvd_eq_of_none {m : List (String × String)} {e : Evd} {y : String}
    (h : m.find? (fun q => q.2 == y) = none) :
    renameEvd m e y = e y := by
  rw [renameEvd, h]

theorem find?_map_eq_value {γ : Type} (f g : γ → String) :
    ∀ (l : List γ) (y : γ), y ∈ l → (∀ z ∈ l, g z = g y → f z = f y) →
      (l.map (fun r => (f r, g r))).find? (fun p => p.2 == g y) = some (f y, g y) := by
  intro l
  induction l with
  | nil => intro y hy; exact absurd hy (List.not_mem_nil y)
  | cons z zs ih =>
    intro y hy hcoh
    by_cases hz : g z = g y
    · rw [List.map_cons, List.find?_cons_of_pos _ (by simpa using hz)]
      rw [hcoh z (List.mem_cons_self z zs) hz, hz]
    · rw [List.map_cons, List.find?_cons_of_neg _ (by simpa using hz)]
      have hy' : y ∈ zs := by
        rcases List.mem_cons.mp hy with rfl | hy'
        · exact absurd rfl hz
        · exact hy'
      exact ih y hy' (fun w hw => hcoh w (List.mem_cons_of_mem z hw))

/-- Facts about recorded transition pairs of a wellformed template: the tail
base is registered, the lag is at most `k-1`, and (absent self-loops) the
pair `(hb, 0)` never occurs. -/
theorem recorded_facts {d : DBN} (hwf : d.wfTemplate) {hb : String} (hhb : hb ∈ d.vars) :
    ∀ r ∈ recorded d hb, r.1 ∈ d.vars ∧ r.2 ≤ d.k - 1 ∧ ¬(r.1 = hb ∧ r.2 = 0) := by
  intro r hr
  rw [recorded, List.mem_map] at hr
  obtain ⟨p, hp, rfl⟩ := hr
  rw [mem_parents] at hp
  obtain ⟨⟨tb, htb, tt, htt, htail⟩, -⟩ := hwf.2.2.1 _ hp
  simp only at htail
  subst htail
  rw [decodeNode_userToCodeName (hwf.1 tb htb) hwf.2.2.2.2]
  refine ⟨htb, by omega, ?_⟩
  rintro ⟨rfl, hz⟩
  have htt' : tt = d.k - 1 := by omega
  subst htt'
  exact hwf.2.2.2.1 _ hp rfl

/-- Lookup of the head entry of the rename mapping: the source variable
`(hb, tt-1)` reads the target evidence at `(hb, tt)`. -/
theorem renameEvd_mapFor_head (d : DBN) (tt : Nat) (hb : String) (e : Evd) :
    renameEvd (mapFor d tt hb) e (_userToCodeName d.sep hb (tt - 1))
      = e (_userToCodeName d.sep hb tt) := by
  rw [renameEvd_eq_of_find? (p := (_userToCodeName d.sep hb tt,
    _userToCodeName d.sep hb (tt - 1))) ?_]
  rw [mapFor, List.find?_cons_of_pos _ (by simp)]

/-- Lookup of a recorded-parent entry of the rename mapping: the source
variable `(tb, tt-dd-1)` reads the target evidence at `(tb, tt-dd)`. -/
theorem renameEvd_mapFor_recorded {d : DBN} (hwf : d.wfTemplate) (hk : 0 < d.k)
    {hb : String} (hhb : hb ∈ d.vars) {tt : Nat} (htt : d.k ≤ tt)
    {r : String × Nat} (hr : r ∈ recorded d hb) (e : Evd) :
    renameEvd (mapFor d tt hb) e (_userToCodeName d.sep r.1 (tt - r.2 - 1))
      = e (_userToCodeName d.sep r.1 (tt - r.2)) := by
  obtain ⟨hrv, hrle, hrns⟩ := recorded_facts hwf hhb r hr
  have hhead : ((_userToCodeName d.sep hb tt, _userToCodeName d.sep hb (tt - 1)) :
      String × String).2 ≠ _userToCodeName d.sep r.1 (tt - r.2 - 1) := by
    intro he
    obtain ⟨hv, hs⟩ := enc_inj_of_wf hwf hhb hrv he
    exact hrns ⟨hv.symm, by omega⟩
  have hfind : (mapFor d tt hb).find?
      (fun q => q.2 == _userToCodeName d.sep r.1 (tt - r.2 - 1))
      = some (_userToCodeName d.sep r.1 (tt - r.2),
          _userToCodeName d.sep r.1 (tt - r.2 - 1)) := by
    rw [mapFor, List.find?_cons_of_neg _ (by simpa using hhead)]
    have := find?_map_eq_value (fun z => _userToCodeName d.sep z.1 (tt - z.2))
      (fun z => _userToCodeName d.sep z.1 (tt - z.2 - 1)) (recorded d hb) r hr ?_
    · exact this
    · intro z hz he
      obtain ⟨hzv, hzle, -⟩ := recorded_facts hwf hhb z hz
      obtain ⟨hv, hs⟩ := enc_inj_of_wf hwf hzv hrv he
      have hz2 : z.2 = r.2 := by omega
      simp only
      rw [hv, hz2]
  rw [renameEvd_eq_of_find? hfind]

/-- Flat evidence built from user evidence `u` with every slice shifted up by
`σ`: the flat key `(n, s)` reads `u n (s - σ)`. -/
def flatShift (sep : Char) (u : String → Nat → Nat) (σ : Nat) : Evd :=
  fun s => u (decodeNode sep s).1 ((decodeNode sep s).2 - σ)

theorem flatShift_enc {sep : Char} {n : String} (hn : sep ∉ n.data)
    (hd : SepNotDigit sep) (u : String → Nat → Nat) (σ s : Nat) :
    flatShift sep u σ (_userToCodeName sep n s) = u n (s - σ) := by
  rw [flatShift, decodeNode_userToCodeName hn hd]

theorem PWf_allPairs {d : DBN} {nbr : Nat} (hn : d.k ≤ nbr) :
    PWf d ((List.range' d.k (nbr - d.k)).map
      (fun s => d.vars.map (fun w => (s, w)))).flatten := by
  intro tv htv
  obtain ⟨t, w⟩ := tv
  obtain ⟨h1, h2, h3⟩ := (mem_allPairs hn).1 htv
  exact ⟨h1, h3⟩

/-- The joint dependency/steady-state induction behind claim C1: at every
slice `t ∈ [k-1, nbr)` of the unrolled network, the CPT of `(hb, t)` depends
only on its own variables, and evaluating it with every slice shifted up by
`t-(k-1)` gives the template CPT of `(hb, k-1)` on the unshifted evidence. -/
theorem unroll_dep_shift {d : DBN} (hwf : d.wfTemplate) (hk : 0 < d.k)
    {nbr : Nat} (hn : d.k ≤ nbr) {hb : String} (hhb : hb ∈ d.vars)
    (hdep : ∀ e₁ e₂ : Evd,
      e₁ (_userToCodeName d.sep hb (d.k - 1)) = e₂ (_userToCodeName d.sep hb (d.k - 1)) →
      (∀ r ∈ recorded d hb,
        e₁ (_userToCodeName d.sep r.1 (d.k - 1 - r.2))
          = e₂ (_userToCodeName d.sep r.1 (d.k - 1 - r.2))) →
      d.kTBN.getCpt (_userToCodeName d.sep hb (d.k - 1)) e₁
        = d.kTBN.getCpt (_userToCodeName d.sep hb (d.k - 1)) e₂) :
    ∀ t, d.k - 1 ≤ t → t < nbr →
      (∀ e₁ e₂ : Evd,
        e₁ (_userToCodeName d.sep hb t) = e₂ (_userToCodeName d.sep hb t) →
        (∀ r ∈ recorded d hb,
          e₁ (_userToCodeName d.sep r.1 (t - r.2)) = e₂ (_userToCodeName d.sep r.1 (t - r.2))) →
        (unrollCore d nbr).getCpt (_userToCodeName d.sep hb t) e₁
          = (unrollCore d nbr).getCpt (_userToCodeName d.sep hb t) e₂) ∧
      (∀ u : String → Nat → Nat,
        (unrollCore d nbr).getCpt (_userToCodeName d.sep hb t)
            (flatShift d.sep u (t - (d.k - 1)))
          = d.kTBN.getCpt (_userToCodeName d.sep hb (d.k - 1)) (flatShift d.sep u 0)) := by
  have hinv := Inv_unrollCore hwf hk nbr
  have hPwf := PWf_allPairs (d := d) hn
  have hstab : (unrollCore d nbr).getCpt (_userToCodeName d.sep hb (d.k - 1))
      = d.kTBN.getCpt (_userToCodeName d.sep hb (d.k - 1)) :=
    getCpt_template_key hwf hinv hPwf (hwf.1 hb hhb) (by omega)
  refine fun t ht => ?_
  induction t, ht using Nat.le_induction with
  | base =>
    intro hlt
    constructor
    · intro e₁ e₂ h1 h2
      rw [hstab]
      exact hdep e₁ e₂ h1 h2
    · intro u
      rw [hstab, Nat.sub_self]
  | succ t ht ih =>
    intro hlt
    obtain ⟨hD, hS⟩ := ih (by omega)
    have hmem : ((t + 1, hb) : Nat × String) ∈ ((List.range' d.k (nbr - d.k)).map
        (fun s => d.vars.map (fun w => (s, w)))).flatten :=
      (mem_allPairs hn).2 ⟨by omega, hlt, hhb⟩
    have hA : ∀ e, (unrollCore d nbr).getCpt (_userToCodeName d.sep hb (t + 1)) e
        = (unrollCore d nbr).getCpt (_userToCodeName d.sep hb t)
          (renameEvd (mapFor d (t + 1) hb) e) := by
      intro e
      exact hinv.2.2 (t + 1, hb) hmem e
    have hrle : ∀ r ∈ recorded d hb, r.2 ≤ d.k - 1 :=
      fun r hr => (recorded_facts hwf hhb r hr).2.1
    have hrv : ∀ r ∈ recorded d hb, r.1 ∈ d.vars :=
      fun r hr => (recorded_facts hwf hhb r hr).1
    constructor
    · intro e₁ e₂ h1 h2
      rw [hA e₁, hA e₂]
      apply hD
      · have he₁ : renameEvd (mapFor d (t + 1) hb) e₁ (_userToCodeName d.sep hb t)
            = e₁ (_userToCodeName d.sep hb (t + 1)) :=
          renameEvd_mapFor_head d (t + 1) hb e₁
        have he₂ : renameEvd (mapFor d (t + 1) hb) e₂ (_userToCodeName d.sep hb t)
            = e₂ (_userToCodeName d.sep hb (t + 1)) :=
          renameEvd_mapFor_head d (t + 1) hb e₂
        rw [he₁, he₂]
        exact h1
      · intro r hr
        have hs : t - r.2 = t + 1 - r.2 - 1 := by
          have := hrle r hr
          omega
        have he₁ : renameEvd (mapFor d (t + 1) hb) e₁
            (_userToCodeName d.sep r.1 (t + 1 - r.2 - 1))
            = e₁ (_userToCodeName d.sep r.1 (t + 1 - r.2)) :=
          renameEvd_mapFor_recorded hwf hk hhb (by omega) hr e₁
        have he₂ : renameEvd (mapFor d (t + 1) hb) e₂
            (_userToCodeName d.sep r.1 (t + 1 - r.2 - 1))
            = e₂ (_userToCodeName d.sep r.1 (t + 1 - r.2)) :=
          renameEvd_mapFor_recorded hwf hk hhb (by omega) hr e₂
        rw [hs, he₁, he₂]
        exact h2 r hr
    · intro u
      rw [hA]
      have hswitch := hD (renameEvd (mapFor d (t + 1) hb)
          (flatShift d.sep u (t + 1 - (d.k - 1))))
        (flatShift d.sep u (t - (d.k - 1))) ?_ ?_
      · exact hswitch.trans (hS u)
      · have hhd : renameEvd (mapFor d (t + 1) hb)
            (flatShift d.sep u (t + 1 - (d.k - 1))) (_userToCodeName d.sep hb t)
            = flatShift d.sep u (t + 1 - (d.k - 1)) (_userToCodeName d.sep hb (t + 1)) :=
          renameEvd_mapFor_head d (t + 1) hb _
        rw [hhd, flatShift_enc (hwf.1 hb hhb) hwf.2.2.2.2,
          flatShift_enc (hwf.1 hb hhb) hwf.2.2.2.2]
        congr 1
        omega
      · intro r hr
        have hle := hrle r hr
        have hs : t - r.2 = t + 1 - r.2 - 1 := by omega
        have hre : renameEvd (mapFor d (t + 1) hb)
            (flatShift d.sep u (t + 1 - (d.k - 1)))
            (_userToCodeName d.sep r.1 (t + 1 - r.2 - 1))
            = flatShift d.sep u (t + 1 - (d.k - 1))
              (_userToCodeName d.sep r.1 (t + 1 - r.2)) :=
          renameEvd_mapFor_recorded hwf hk hhb (by omega) hr _
        rw [hs, hre, flatShift_enc (hwf.1 r.1 (hrv r hr)) hwf.2.2.2.2,
          flatShift_enc (hwf.1 r.1 (hrv r hr)) hwf.2.2.2.2]
        congr 1
        omega

/-! ### Claims C1 and C2 -/

/-- C1: after a successful `unrollKTBN`, for every new slice `t ∈ [k, nbr)`
and registered head-base `hb`, the CPT of `(hb, t)` is the CPT of
`(hb, t-1)` read through the rename mapping that sends the head `(hb, t)` to
`(hb, t-1)` and each recorded parent `(tb, t-d)` to `(tb, t-d-1)`;
consequently — provided the template CPT of `(hb, k-1)` depends only on its
own variables — evaluating the CPT of `(hb, t)` with every slice shifted
uniformly up by `t-(k-1)` equals evaluating the CPT of `(hb, k-1)` with the
original, unshifted evidence. -/
theorem C1_cpt_propagation (d : DBN) (nbr : Nat) (hwf : d.wfTemplate) (hk : 0 < d.k)
    (U : BN) (hU : unrollKTBN d nbr = .ok U)
    (hb : String) (hhb : hb ∈ d.vars) (t : Nat) (ht₁ : d.k ≤ t) (ht₂ : t < nbr)
    (hdep : ∀ e₁ e₂ : Evd,
      e₁ (_userToCodeName d.sep hb (d.k - 1)) = e₂ (_userToCodeName d.sep hb (d.k - 1)) →
      (∀ r ∈ recorded d hb,
        e₁ (_userToCodeName d.sep r.1 (d.k - 1 - r.2))
          = e₂ (_userToCodeName d.sep r.1 (d.k - 1 - r.2))) →
      d.kTBN.getCpt (_userToCodeName d.sep hb (d.k - 1)) e₁
        = d.kTBN.getCpt (_userToCodeName d.sep hb (d.k - 1)) e₂) :
    (∀ e, U.getCpt (_userToCodeName d.sep hb t) e
      = U.getCpt (_userToCodeName d.sep hb (t - 1)) (renameEvd (mapFor d t hb) e)) ∧
    (∀ u : String → Nat → Nat,
      U.getCpt (_userToCodeName d.sep hb t) (flatShift d.sep u (t - (d.k - 1)))
        = U.getCpt (_userToCodeName d.sep hb (d.k - 1)) (flatShift d.sep u 0)) := by
  have hn : d.k ≤ nbr := by
    by_contra h
    rw [unrollKTBN, if_pos (by omega)] at hU
    exact absurd hU (by simp)
  have hUeq : U = unrollCore d nbr := by
    rw [unrollKTBN, if_neg (by omega)] at hU
    exact (Except.ok.inj hU).symm
  subst hUeq
  constructor
  · intro e
    exact (Inv_unrollCore hwf hk nbr).2.2 (t, hb)
      ((mem_allPairs hn).2 ⟨ht₁, ht₂, hhb⟩) e
  · intro u
    have hstab : (unrollCore d nbr).getCpt (_userToCodeName d.sep hb (d.k - 1))
        = d.kTBN.getCpt (_userToCodeName d.sep hb (d.k - 1)) :=
      getCpt_template_key hwf (Inv_unrollCore hwf hk nbr) (PWf_allPairs hn)
        (hwf.1 hb hhb) (by omega)
    rw [hstab]
    exact ((unroll_dep_shift hwf hk hn hhb hdep) t (by omega) ht₂).2 u

/-- C2: after a successful `unrollKTBN`, the arcs whose head lies in a new
slice `t ∈ [k, nbr)` are exactly those derived from the template's
transition arcs: an arc `a → (hb, t)` exists iff the template has an arc
`(tb, tt) → (hb, k-1)` with `a = (tb, t - d)` for the offset `d = (k-1) - tt`.
In particular template arcs whose head lies in a slice earlier than `k-1`
are not extrapolated to any new slice. -/
theorem C2_new_slice_arcs (d : DBN) (nbr : Nat) (hwf : d.wfTemplate) (hk : 0 < d.k)
    (U : BN) (hU : unrollKTBN d nbr = .ok U)
    (t : Nat) (ht₁ : d.k ≤ t) (ht₂ : t < nbr)
    (hb : String) (hsf : d.sep ∉ hb.data) (a : String) :
    ((a, _userToCodeName d.sep hb t) ∈ U.arcs) ↔
      (∃ tb tt, (_userToCodeName d.sep tb tt,
          _userToCodeName d.sep hb (d.k - 1)) ∈ d.kTBN.arcs ∧
        tb ∈ d.vars ∧ tt < d.k ∧
        a = _userToCodeName d.sep tb (t - (d.k - 1 - tt))) := by
  have hn : d.k ≤ nbr := by
    by_contra h
    rw [unrollKTBN, if_pos (by omega)] at hU
    exact absurd hU (by simp)
  have hUeq : U = unrollCore d nbr := by
    rw [unrollKTBN, if_neg (by omega)] at hU
    exact (Except.ok.inj hU).symm
  subst hUeq
  have hinv := Inv_unrollCore hwf hk nbr
  rw [hinv.1, List.mem_append]
  constructor
  · rintro (hmem | hmem)
    · exfalso
      obtain ⟨-, v, hv, s, hs, hhead⟩ := hwf.2.2.1 _ hmem
      simp only at hhead
      obtain ⟨-, hts⟩ := userToCodeName_inj hsf (hwf.1 v hv) hhead
      omega
    · rw [List.mem_flatten] at hmem
      obtain ⟨L, hL, habL⟩ := hmem
      rw [List.mem_map] at hL
      obtain ⟨⟨t', v'⟩, htv', rfl⟩ := hL
      obtain ⟨ht'k, ht'n, hv'⟩ := (mem_allPairs hn).1 htv'
      rw [newArcs, List.mem_map] at habL
      obtain ⟨r, hr, habr⟩ := habL
      have hfst : a = _userToCodeName d.sep r.1 (t' - r.2) :=
        (congrArg Prod.fst habr).symm
      have hsnd : _userToCodeName d.sep v' t' = _userToCodeName d.sep hb t :=
        congrArg Prod.snd habr
      obtain ⟨hveq, hteq⟩ := userToCodeName_inj (hwf.1 v' hv') hsf hsnd
      subst hveq; subst hteq
      rw [recorded, List.mem_map] at hr
      obtain ⟨p, hp, hpr⟩ := hr
      rw [mem_parents] at hp
      obtain ⟨⟨tb, htb, tt, htt, htail⟩, -⟩ := hwf.2.2.1 _ hp
      simp only at htail
      subst htail
      rw [decodeNode_userToCodeName (hwf.1 tb htb) hwf.2.2.2.2] at hpr
      refine ⟨tb, tt, hp, htb, htt, ?_⟩
      rw [hfst, ← hpr]
  · rintro ⟨tb, tt, harc, htb, htt, rfl⟩
    right
    have hhb : hb ∈ d.vars := by
      obtain ⟨-, v, hv, s, hs, hhead⟩ := hwf.2.2.1 _ harc
      simp only at hhead
      obtain ⟨hveq, -⟩ := userToCodeName_inj hsf (hwf.1 v hv) hhead
      rw [hveq]
      exact hv
    rw [List.mem_flatten]
    refine ⟨newArcs d t hb, ?_, ?_⟩
    · rw [List.mem_map]
      exact ⟨(t, hb), (mem_allPairs hn).2 ⟨ht₁, ht₂, hhb⟩, rfl⟩
    · rw [newArcs, List.mem_map]
      refine ⟨(tb, d.k - 1 - tt), ?_, rfl⟩
      rw [recorded, List.mem_map]
      refine ⟨_userToCodeName d.sep tb tt, ?_, ?_⟩
      · rw [mem_parents]
        exact harc
      · rw [decodeNode_userToCodeName (hwf.1 tb htb) hwf.2.2.2.2]

/-! ### The concrete scenario of the spec

Horizon 3, variables `A`, `B` of domain size 2, arcs `A0→A1`, `B0→B1`,
`A1→B2`, `B1→B2`, and the CPT of `(B,2)` filled with the eight values
`[0.3333, 0.7777, 0.6, 0.4, 0.5, 0.5, 0.2, 0.8]`. -/

/-- The scenario facade after the four `addArc` calls. -/
def dbnABarcs : DBN :=
  ((dbnAB.addArc ("A", 0) ("A", 1) >>= fun d => d.addArc ("B", 0) ("B", 1) >>=
    fun d => d.addArc ("A", 1) ("B", 2) >>=
    fun d => d.addArc ("B", 1) ("B", 2))).toOption.getD dbnAB

/-- The scenario's table for `P(B2 | A1, B1)`, the positional fill
`[0.3333, 0.7777, 0.6, 0.4, 0.5, 0.5, 0.2, 0.8]` laid out with the head
varying fastest. -/
def cptB2 : Cpt := fun e =>
  (([3333, 7777, 6000, 4000, 5000, 5000, 2000, 8000].getD
    (e "B#2" + 2 * e "A#1" + 4 * e "B#1") 0 : ℚ)) / 10000

/-- The fully populated scenario facade. -/
def dbnABfull : DBN :=
  { dbnABarcs with kTBN := dbnABarcs.kTBN.setCpt "B#2" cptB2 }

/-- The scenario evidence `{B1 : 1}` (everything else in state 0). -/
def uB1 : String → Nat → Nat :=
  fun n s => if n = "B" ∧ s = 1 then 1 else 0

/-- C5, counterexample: with `t1 ≤ t2 < k` and both endpoints registered,
`addArc` does not always succeed.  On the two-variable horizon-3 facade the
self-arc `(A,0) → (A,0)` satisfies `t1 ≤ t2 < k` with its endpoint
registered, yet the engine rejects it with `InvalidDirectedCycle`; on the
populated facade, re-adding the existing arc `(A,0) → (A,1)` fails with
`DuplicateElement`.  Neither failure is a `ValueError`. -/
theorem C5_counterexample :
    ((0 : Nat) ≤ 0 ∧ (0 : Nat) < dbnAB.k ∧ "A" ∈ dbnAB.vars) ∧
      dbnAB.addArc ("A", 0) ("A", 0) = .error .invalidDirectedCycle ∧
      ((0 : Nat) ≤ 1 ∧ (1 : Nat) < dbnABarcs.k ∧ "A" ∈ dbnABarcs.vars ∧
        (_userToCodeName dbnABarcs.sep "A" 0, _userToCodeName dbnABarcs.sep "A" 1)
          ∈ dbnABarcs.kTBN.arcs) ∧
      dbnABarcs.addArc ("A", 0) ("A", 1) = .error .duplicateElement ∧
      PyErr.invalidDirectedCycle.isValueError = false ∧
      PyErr.duplicateElement.isValueError = false :=
  ⟨by decide, rfl, by decide, rfl, rfl, rfl⟩

/-- C5, witness at the populated facade `dbnABarcs`: the backward arc fails
with the ordering error, the self-arc `(A,1) → (A,1)` fails with the
engine's cycle error, re-adding `(A,0) → (A,1)` fails with the engine's
duplicate error, and the fresh acyclic arc `(A,0) → (B,1)` succeeds and
inserts exactly that edge. -/
theorem C5_addArc_cases_witness :
    dbnABarcs.wfFacade ∧ dbnABarcs.sep ∉ "A".data ∧ dbnABarcs.sep ∉ "B".data ∧
      dbnABarcs.addArc ("A", 1) ("B", 0) = .error .valueBackwardArc ∧
      dbnABarcs.addArc ("A", 1) ("A", 1) = .error .invalidDirectedCycle ∧
      dbnABarcs.addArc ("A", 0) ("A", 1) = .error .duplicateElement ∧
      dbnABarcs.addArc ("A", 0) ("B", 1) = .ok { dbnABarcs with kTBN := dbnABarcs.kTBN.addArcE (_userToCodeName dbnABarcs.sep "A" 0) (_userToCodeName dbnABarcs.sep "B" 1) } :=
  ⟨by decide, by decide, by decide,
    (C5_addArc_cases dbnABarcs (by decide) "A" "B" 1 0 (by decide) (by decide)).1
      (by decide),
    (C5_addArc_cases dbnABarcs (by decide) "A" "A" 1 1 (by decide)
        (by decide)).2.2.2.1
      (by decide) (by decide) (by decide) (by decide) (by decide),
    (C5_addArc_cases dbnABarcs (by decide) "A" "A" 0 1 (by decide)
        (by decide)).2.2.2.2.1
      (by decide) (by decide) (by decide) (by decide) (by decide) (by decide),
    (C5_addArc_cases dbnABarcs (by decide) "A" "B" 0 1 (by decide)
        (by decide)).2.2.2.2.2
      (by decide) (by decide) (by decide) (by decide) (by decide) (by decide)⟩

/-- C1, witness at the scenario: after `unroll(5)`, the CPT of `(B,4)`
evaluated with the evidence `{B3:1}` (shift of `{B1:1}` by `4-(k-1)=2`)
equals the CPT of `(B,2)` evaluated with `{B1:1}`. -/
theorem C1_cpt_propagation_witness :
    dbnABfull.wfTemplate ∧ 0 < dbnABfull.k ∧
      unrollKTBN dbnABfull 5 = .ok (unrollCore dbnABfull 5) ∧
      "B" ∈ dbnABfull.vars ∧ dbnABfull.k ≤ 4 ∧ (4 : Nat) < 5 ∧
      (unrollCore dbnABfull 5).getCpt (_userToCodeName dbnABfull.sep "B" 4)
          (flatShift dbnABfull.sep uB1 (4 - (dbnABfull.k - 1)))
        = (unrollCore dbnABfull 5).getCpt
            (_userToCodeName dbnABfull.sep "B" (dbnABfull.k - 1))
            (flatShift dbnABfull.sep uB1 0) :=
  ⟨by decide, by decide, rfl, by decide, by decide, by decide,
    (C1_cpt_propagation dbnABfull 5 (by decide) (by decide) _ rfl "B" (by decide)
      4 (by decide) (by decide) (by
        intro e₁ e₂ h1 h2
        have hrec : recorded dbnABfull "B" = [("A", 1), ("B", 1)] := by decide
        have hA := h2 ("A", 1) (by rw [hrec]; exact List.mem_cons_self _ _)
        have hB := h2 ("B", 1) (by
          rw [hrec]
          exact List.mem_cons_of_mem _ (List.mem_cons_self _ _))
        have hkB2 : _userToCodeName dbnABfull.sep "B" (dbnABfull.k - 1) = "B#2" := by
          decide
        have hkA1 : _userToCodeName dbnABfull.sep ("A", 1).1
            (dbnABfull.k - 1 - ("A", 1).2) = "A#1" := by decide
        have hkB1 : _userToCodeName dbnABfull.sep ("B", 1).1
            (dbnABfull.k - 1 - ("B", 1).2) = "B#1" := by decide
        rw [hkB2] at h1
        rw [hkA1] at hA
        rw [hkB1] at hB
        have hgc : dbnABfull.kTBN.getCpt
            (_userToCodeName dbnABfull.sep "B" (dbnABfull.k - 1)) = cptB2 := by
          rw [hkB2]
          exact getCpt_setCpt_same dbnABarcs.kTBN "B#2" cptB2
        rw [hgc]
        simp only [cptB2]
        rw [h1, hA, hB])).2 uB1⟩

/-- C2, witness at the scenario: after `unroll(5)`, the template transition
arc `(B,1) → (B,2)` induces the arc `B#3 → B#4`. -/
theorem C2_new_slice_arcs_witness :
    dbnABfull.wfTemplate ∧ 0 < dbnABfull.k ∧ dbnABfull.k ≤ 4 ∧ (4 : Nat) < 5 ∧
      dbnABfull.sep ∉ "B".data ∧
      (("B#3", _userToCodeName dbnABfull.sep "B" 4) ∈ (unrollCore dbnABfull 5).arcs) :=
  ⟨by decide, by decide, by decide, by decide, by decide,
    (C2_new_slice_arcs dbnABfull 5 (by decide) (by decide) _ rfl 4 (by decide)
        (by decide) "B" (by decide) "B#3").2
      ⟨"B", 1, by decide, by decide, by decide, by decide⟩⟩

/-! ## Ownership of the unrolled graph

To state the frame claims (C6, C7) the engine graphs live in a store of
cells addressed by references; `gum.BayesNet(dbn.kTBN)` allocates a fresh
cell holding a copy of the template's graph, and the unrolling loop mutates
only that fresh cell. -/

/-- A store of engine graphs; a reference is an index into the cell list. -/
structure Store where
  cells : List BN

/-- Dereference (cells never escape their store; the default is unreachable
for valid references). -/
def Store.get (st : Store) (r : Nat) : BN :=
  st.cells.getD r ⟨[], [], []⟩

/-- Overwrite one cell. -/
def Store.set (st : Store) (r : Nat) (bn : BN) : Store :=
  ⟨st.cells.set r bn⟩

/-- Allocate a fresh cell (the copy constructor `gum.BayesNet(bn)` ends
here): returns the new store and the fresh reference. -/
def Store.alloc (st : Store) (bn : BN) : Store × Nat :=
  (⟨st.cells ++ [bn]⟩, st.cells.length)

/-- A facade whose engine graph lives in a store cell. -/
structure DBNRef where
  ref : Nat
  vars : List String
  k : Nat
  sep : Char

/-- The value-level facade a `DBNRef` denotes in a store. -/
def DBNRef.toDBN (dr : DBNRef) (st : Store) : DBN :=
  ⟨st.get dr.ref, dr.vars, dr.k, dr.sep⟩

/-- `unrollKTBN` at the store level: check `nbr ≥ k` (before anything is
allocated), then allocate a fresh copy of the template's graph and run the
unrolling loop on that copy only. -/
def unrollS (st : Store) (dr : DBNRef) (nbr : Nat) : Store × Except PyErr Nat :=
  if nbr < dr.k then (st, .error .valueUnrollTooShort)
  else
    ((st.alloc (st.get dr.ref)).1.set (st.alloc (st.get dr.ref)).2
        (unrollCore (dr.toDBN st) nbr),
      .ok (st.alloc (st.get dr.ref)).2)

theorem store_get_set_ne (st : Store) (r i : Nat) (bn : BN) (h : i ≠ r) :
    (st.set r bn).get i = st.get i := by
  rw [Store.set, Store.get, Store.get]
  simp only [List.getD_eq_getElem?_getD]
  rw [List.getElem?_set_ne (Ne.symm h)]

theorem store_get_alloc_lt (st : Store) (bn : BN) (i : Nat) (h : i < st.cells.length) :
    (st.alloc bn).1.get i = st.get i := by
  rw [Store.alloc, Store.get, Store.get]
  simp only [List.getD_eq_getElem?_getD]
  rw [List.getElem?_append, if_pos h]

/-! ### Claims C6 and C7 -/

/-- C6: `unrollKTBN` with `nbr < k` fails with `ValueError`
(ValidationError), and it does so atomically before any output graph state
exists: the store is returned unchanged — no cell is allocated or written —
and the value-level unroll returns the error with no graph. -/
theorem C6_unroll_too_short (st : Store) (dr : DBNRef) (nbr : Nat) (h : nbr < dr.k) :
    unrollS st dr nbr = (st, .error .valueUnrollTooShort) ∧
      PyErr.valueUnrollTooShort.isValueError = true ∧
      unrollKTBN (dr.toDBN st) nbr = .error .valueUnrollTooShort := by
  refine ⟨?_, rfl, ?_⟩
  · rw [unrollS, if_pos h]
  · rw [unrollKTBN]
    have : (dr.toDBN st).k = dr.k := rfl
    rw [if_pos (by rw [this]; exact h)]

/-- C6, witness: unrolling the scenario template to 2 < 3 slices fails with
`ValueError` and leaves the store untouched. -/
theorem C6_unroll_too_short_witness :
    ((2 : Nat) < (DBNRef.mk 0 dbnABfull.vars dbnABfull.k dbnABfull.sep).k) ∧
      (unrollS ⟨[dbnABfull.kTBN]⟩
          (DBNRef.mk 0 dbnABfull.vars dbnABfull.k dbnABfull.sep) 2
        = (⟨[dbnABfull.kTBN]⟩, .error .valueUnrollTooShort) ∧
      PyErr.valueUnrollTooShort.isValueError = true ∧
      unrollKTBN ((DBNRef.mk 0 dbnABfull.vars dbnABfull.k dbnABfull.sep).toDBN
          ⟨[dbnABfull.kTBN]⟩) 2
        = .error .valueUnrollTooShort) :=
  ⟨by decide, C6_unroll_too_short ⟨[dbnABfull.kTBN]⟩
    (DBNRef.mk 0 dbnABfull.vars dbnABfull.k dbnABfull.sep) 2 (by decide)⟩

/-- C7: a successful unroll returns a freshly owned graph: the result
reference is distinct from the template's, the template's cell is identical
before and after the call, and overwriting the returned cell with anything
never changes the template's cell. -/
theorem C7_unroll_independent (st : Store) (dr : DBNRef) (nbr : Nat)
    (hv : dr.ref < st.cells.length) (h : dr.k ≤ nbr) :
    ∃ st' r, unrollS st dr nbr = (st', .ok r) ∧
      r ≠ dr.ref ∧
      st'.get dr.ref = st.get dr.ref ∧
      (∀ bn' : BN, (st'.set r bn').get dr.ref = st.get dr.ref) := by
  have hne : dr.ref ≠ (st.alloc (st.get dr.ref)).2 := by
    show dr.ref ≠ st.cells.length
    omega
  refine ⟨(st.alloc (st.get dr.ref)).1.set (st.alloc (st.get dr.ref)).2
      (unrollCore (dr.toDBN st) nbr), (st.alloc (st.get dr.ref)).2, ?_,
      Ne.symm hne, ?_, ?_⟩
  · rw [unrollS, if_neg (by omega)]
  · rw [store_get_set_ne _ _ _ _ hne, store_get_alloc_lt _ _ _ hv]
  · intro bn'
    rw [store_get_set_ne _ _ _ _ hne,
      store_get_set_ne _ _ _ _ hne, store_get_alloc_lt _ _ _ hv]

/-- C7, witness: unrolling the scenario template to 5 slices from a
one-cell store. -/
theorem C7_unroll_independent_witness :
    ((DBNRef.mk 0 dbnABfull.vars dbnABfull.k dbnABfull.sep).ref
        < (Store.mk [dbnABfull.kTBN]).cells.length) ∧
      (∃ st' r, unrollS ⟨[dbnABfull.kTBN]⟩
          (DBNRef.mk 0 dbnABfull.vars dbnABfull.k dbnABfull.sep) 5 = (st', .ok r) ∧
        r ≠ (DBNRef.mk 0 dbnABfull.vars dbnABfull.k dbnABfull.sep).ref ∧
        st'.get 0 = (Store.mk [dbnABfull.kTBN]).get 0 ∧
        (∀ bn' : BN, (st'.set r bn').get 0 = (Store.mk [dbnABfull.kTBN]).get 0)) :=
  ⟨by decide, C7_unroll_independent ⟨[dbnABfull.kTBN]⟩
    (DBNRef.mk 0 dbnABfull.vars dbnABfull.k dbnABfull.sep) 5 (by decide) (by decide)⟩

end DBNSpec
